import Mathlib

/-!
# Verification of the egdata manifests parser

A shallow embedding of the Rust manifest-decoding pipeline
(`src/lib.rs`, `src/parser/reader.rs`, `src/types/*.rs`) over byte lists,
together with theorems settling the specification claims.

Conventions of the embedding:

* A byte buffer is a `List Nat` (each byte a value `< 256`; little-endian
  folds reduce every byte `% 256`, matching `u8`).
* Rust `Cursor`/`LimitedReader` reads are modelled by `readBytesTol`
  (`ReadExt::read_bytes_tolerant`): it yields whatever bytes are available
  and advances the position by the number actually read.  Both
  `LimitedReader` types in the source behave as a plain cursor over the
  captured byte range with clamped seeks, which is modelled directly.
* Fallible Rust functions returning `Result<_, ManifestError>` become
  `Except MErr _`.  Error payload strings are dropped; only the variant is
  kept.
* Rust strings (`String`, produced by `from_utf8_lossy` or carried in the
  JSON structures) are modelled as their byte lists; `Uuid` values are
  modelled as their 16 raw bytes (`Uuid::to_string` is injective, so
  keying maps by the string or by the bytes is equivalent).
* External libraries (zlib inflate, SHA-1, serde_json, uuid string
  parsing, `DefaultHasher`) are abstracted as function parameters gathered
  in the `Ext` structure; theorems hold for every behaviour of these.
* The top-level binary pipeline can reach Rust panics (an index
  out of bounds / integer-overflow in the zlib-signature scan and in the
  payload framing arithmetic).  These are modelled explicitly by the
  `.panic` outcome so that panic-freedom claims are meaningful.
-/

set_option maxRecDepth 100000

namespace EgdataManifest

/-- A byte buffer / Rust `Vec<u8>` / `&[u8]`. -/
abbrev Bytes := List Nat

/-- `ManifestError` (src/error.rs), payload strings dropped.
`ioErr` is `ManifestError::Io`, `inflateErr` is `ManifestError::Inflate`,
`invalidData` is `ManifestError::Invalid`, `encryptedErr` is
`ManifestError::EncryptedManifest`. -/
inductive MErr where
  | ioErr
  | inflateErr
  | invalidData
  | encryptedErr
  deriving DecidableEq, Repr

/-- `ReadExt::read_bytes_tolerant` over a cursor `(data, pos)`: return the
bytes actually available (up to `n`) and the advanced position. -/
def readBytesTol (data : Bytes) (pos n : Nat) : Bytes × Nat :=
  let bs := (data.drop pos).take n
  (bs, pos + bs.length)

/-- Little-endian value of a byte list (each byte reduced mod 256, as `u8`). -/
def leVal : Bytes → Nat
  | [] => 0
  | b :: bs => b % 256 + 256 * leVal bs

/-- Interpret a `u32` bit pattern as Rust `i32`. -/
def i32OfNat (v : Nat) : Int :=
  if v < 2 ^ 31 then (v : Int) else (v : Int) - 2 ^ 32

/-- Rust `v as usize` for an `i32` value `v` (sign extension to 64 bits). -/
def usizeOfI32 (v : Int) : Nat :=
  ((v + 2 ^ 64) % 2 ^ 64).toNat

/-- The common shape of the fixed-width `ReadExt` readers: a tolerant
read of `w` bytes, an `UnexpectedEof` I/O error when fewer arrive. -/
def readLE (w : Nat) (data : Bytes) (pos : Nat) : Except MErr (Nat × Nat) :=
  let r := readBytesTol data pos w
  if r.1.length < w then .error .ioErr else .ok (leVal r.1, r.2)

/-- `ReadExt::u8`. -/
def readU8 (data : Bytes) (pos : Nat) : Except MErr (Nat × Nat) :=
  readLE 1 data pos

/-- `ReadExt::u32` (little endian). -/
def readU32 (data : Bytes) (pos : Nat) : Except MErr (Nat × Nat) :=
  readLE 4 data pos

/-- `ReadExt::u64` (little endian). -/
def readU64 (data : Bytes) (pos : Nat) : Except MErr (Nat × Nat) :=
  readLE 8 data pos

/-- `ReadExt::i32`. -/
def readI32 (data : Bytes) (pos : Nat) : Except MErr (Int × Nat) :=
  match readU32 data pos with
  | .error e => .error e
  | .ok (v, p) => .ok (i32OfNat v, p)

/-- The 1 GiB cap used by `fstring`, and the section-size caps. -/
def GB : Nat := 1024 * 1024 * 1024

/-- `ReadExt::fstring`: `u32` length, then that many bytes (lossily decoded
in Rust; modelled as the raw bytes).  Length 0 yields the empty string,
lengths above 1 GiB and short reads are I/O errors. -/
def readFString (data : Bytes) (pos : Nat) : Except MErr (Bytes × Nat) :=
  match readU32 data pos with
  | .error e => .error e
  | .ok (len, p) =>
    if len = 0 then .ok ([], p)
    else if GB < len then .error .ioErr
    else
      let r := readBytesTol data p len
      if r.1.length < len then .error .ioErr else .ok (r.1, r.2)

/-- Run a cursor reader `n` times in sequence, collecting the results. -/
def readN {α : Type} (r : Bytes → Nat → Except MErr (α × Nat)) :
    Nat → Bytes → Nat → Except MErr (List α × Nat)
  | 0, _, pos => .ok ([], pos)
  | n + 1, data, pos =>
    match r data pos with
    | .error e => .error e
    | .ok (a, p) =>
      match readN r n data p with
      | .error e => .error e
      | .ok (as, q) => .ok (a :: as, q)

/-- `ReadExt::fstring_array`: `u32` count then that many fstrings. -/
def readFStringArray (data : Bytes) (pos : Nat) :
    Except MErr (List Bytes × Nat) :=
  match readU32 data pos with
  | .error e => .error e
  | .ok (len, p) => readN readFString len data p

/-- The bytes `buf[pos .. pos+n]` (clipped at the end of the buffer). -/
def bytesAt (buf : Bytes) (pos n : Nat) : Bytes :=
  (buf.drop pos).take n

/-- A fixed-offset read demanding all `n` bytes (used by the header decoder,
whose reads sit at statically known offsets). -/
def readAt (buf : Bytes) (pos n : Nat) : Option Bytes :=
  let bs := bytesAt buf pos n
  if bs.length = n then some bs else none

/-- `ManifestHeader` (src/types/header.rs).  `guid`, `rollingHash` and
`hashType` are always defaulted by the decoder and are omitted.
The 20 hash bytes are kept raw (`sha1_hash` holds their hex encoding in
Rust; hex encoding is injective). -/
structure ManifestHeader where
  headerSize : Int
  dataSizeUncompressed : Int
  dataSizeCompressed : Int
  sha1Hash : Bytes
  storedAs : Nat
  version : Int
  deriving DecidableEq, Repr

def MANIFEST_MAGIC : Nat := 0x44BEC00C

/-- `ManifestHeader::read`.  The cursor visits fixed offsets
(0 magic, 4 header_size, 8/12 data sizes, 16 the 20 hash bytes, 36 the
storage flags, 37 the optional version), so the reads are written against
those offsets directly; each full-width read advances the Rust cursor by
exactly its width and any short read aborts with the same I/O error, so
this is observationally the cursor-threaded computation.  The trailing
seek to `header_size` only moves a cursor the caller never reuses. -/
def headerRead (buf : Bytes) : Except MErr ManifestHeader :=
  match readAt buf 0 4 with
  | none => .error .ioErr
  | some mg =>
    if leVal mg ≠ MANIFEST_MAGIC then .error .invalidData
    else
      match readAt buf 4 4, readAt buf 8 4, readAt buf 12 4,
          readAt buf 16 20, readAt buf 36 1 with
      | some hsb, some dsub, some dscb, some hashb, some sab =>
        let hs := i32OfNat (leVal hsb)
        if 37 < hs then
          match readAt buf 37 4 with
          | none => .error .ioErr
          | some vb =>
            .ok ⟨hs, i32OfNat (leVal dsub), i32OfNat (leVal dscb), hashb,
              leVal sab, i32OfNat (leVal vb)⟩
        else
          .ok ⟨hs, i32OfNat (leVal dsub), i32OfNat (leVal dscb), hashb,
            leVal sab, 0⟩
      | _, _, _, _, _ => .error .ioErr

/-- Modelled from the spec: `src/types/flags.rs` is declared by `lib.rs`
but absent from the sources; §3 of the spec fixes the storage-flags
bitfield as bit0 = compressed. -/
def STORED_COMPRESSED : Nat := 1

/-- Modelled from the spec: `src/types/flags.rs` is declared by `lib.rs`
but absent from the sources; §3 of the spec fixes the storage-flags
bitfield as bit1 = encrypted. -/
def STORED_ENCRYPTED : Nat := 2

/-- `ManifestHeader::is_compressed`. -/
def ManifestHeader.isCompressed (h : ManifestHeader) : Bool :=
  h.storedAs &&& STORED_COMPRESSED ≠ 0

/-- `ManifestHeader::is_encrypted`. -/
def ManifestHeader.isEncrypted (h : ManifestHeader) : Bool :=
  h.storedAs &&& STORED_ENCRYPTED ≠ 0

/-! ## Metadata section (src/types/meta.rs) -/

/-- `ManifestMeta`; string fields hold the raw (un-trimmed) bytes. -/
structure ManifestMeta where
  dataSize : Nat
  dataVersion : Nat
  featureLevel : Int
  isFileData : Bool
  appId : Int
  appName : Bytes
  buildVersion : Bytes
  launchExe : Bytes
  launchCommand : Bytes
  prereqIds : List Bytes
  prereqName : Bytes
  prereqPath : Bytes
  prereqArgs : Bytes
  buildId : Option Bytes
  deriving DecidableEq, Repr

/-- The field reads of `ManifestMeta::read_meta` performed inside the
`LimitedReader` window (a fresh cursor over the captured bytes).  `ds` is
the already-validated section size stored into the record. -/
def metaInner (ds : Nat) (inner : Bytes) : Except MErr ManifestMeta :=
  match readU8 inner 0 with
  | .error e => .error e
  | .ok (dv, p1) =>
  match readI32 inner p1 with
  | .error e => .error e
  | .ok (featureLevel, p2) =>
  match readU8 inner p2 with
  | .error e => .error e
  | .ok (fd, p3) =>
  match readI32 inner p3 with
  | .error e => .error e
  | .ok (appId, p4) =>
  match readFString inner p4 with
  | .error e => .error e
  | .ok (appName, p5) =>
  match readFString inner p5 with
  | .error e => .error e
  | .ok (buildVersion, p6) =>
  match readFString inner p6 with
  | .error e => .error e
  | .ok (launchExe, p7) =>
  match readFString inner p7 with
  | .error e => .error e
  | .ok (launchCommand, p8) =>
  match readFStringArray inner p8 with
  | .error e => .error e
  | .ok (prereqIds, p9) =>
  match readFString inner p9 with
  | .error e => .error e
  | .ok (prereqName, p10) =>
  match readFString inner p10 with
  | .error e => .error e
  | .ok (prereqPath, p11) =>
  match readFString inner p11 with
  | .error e => .error e
  | .ok (prereqArgs, p12) =>
    if 1 ≤ dv then
      match readFString inner p12 with
      | .error e => .error e
      | .ok (buildId, _) =>
        .ok ⟨ds, dv, featureLevel, fd ≠ 0, appId, appName, buildVersion,
          launchExe, launchCommand, prereqIds, prereqName, prereqPath,
          prereqArgs, some buildId⟩
    else
      .ok ⟨ds, dv, featureLevel, fd ≠ 0, appId, appName, buildVersion,
        launchExe, launchCommand, prereqIds, prereqName, prereqPath,
        prereqArgs, none⟩

/-- `ManifestMeta::read_meta` on the outer cursor `(data, pos)`.
Returns the result together with the outer cursor position afterwards
(Rust leaves the cursor wherever the reads advanced it, also on error):
the `u32` size read consumes up to 4 bytes, the bulk
`read_bytes_tolerant(data_size - 4)` consumes what is available, and the
`LimitedReader` field decoding consumes nothing from the outer cursor. -/
def metaRead (data : Bytes) (pos : Nat) : Except MErr ManifestMeta × Nat :=
  let r := readBytesTol data pos 4
  if r.1.length < 4 then (.error .ioErr, r.2)
  else
    let ds := leVal r.1
    if ds = 0 ∨ GB < ds then (.error .invalidData, r.2)
    else
      let rb := readBytesTol data r.2 (ds - 4)
      match metaInner ds rb.1 with
      | .error e => (.error e, rb.2)
      | .ok m => (.ok m, rb.2)

/-- Lines 181–215 of `lib.rs`: read the metadata section at `pos`, mapping
failure to `none`, and on success seek the outer cursor to
`pos + meta.data_size` (the header-declared section boundary).  Returns the
metadata option and the position at which the chunk directory is read. -/
def afterMeta (data : Bytes) (pos : Nat) : Option ManifestMeta × Nat :=
  match metaRead data pos with
  | (.ok m, _) => (some m, pos + m.dataSize)
  | (.error _, p) => (none, p)

end EgdataManifest

namespace EgdataManifest

/-! ## Chunk directory (src/types/chunk.rs) -/

/-- `Chunk`.  `guid` is the 16 raw GUID bytes (`Uuid::to_string` is
injective, so the canonical string and the bytes key maps identically);
`hash` is the `u64` rolling hash (hex-formatted in Rust, injectively);
`shaHash` is the 20 (possibly zero-padded) SHA bytes;
`fileSize` is the `u64` (decimal-formatted in Rust, injectively). -/
structure Chunk where
  guid : Bytes
  hash : Nat
  shaHash : Bytes
  group : Nat
  windowSize : Nat
  fileSize : Nat
  deriving DecidableEq, Repr

/-- The `guid → index` lookup (`HashMap<String, u32>`), modelled as an
association list with distinct keys; `insert` overwrites in place. -/
abbrev Lookup := List (Bytes × Nat)

/-- `HashMap::insert`: replace the value of an existing key, else add. -/
def lkInsert (l : Lookup) (k : Bytes) (v : Nat) : Lookup :=
  if l.any (fun p => p.1 == k) then
    l.map (fun p => if p.1 == k then (k, v) else p)
  else
    l ++ [(k, v)]

/-- `HashMap::get` / `contains_key`. -/
def lkFind (l : Lookup) (k : Bytes) : Option Nat :=
  (l.find? (fun p => p.1 == k)).map (fun p => p.2)

/-- The GUID column loop of `ChunkDataList::read`: collect the raw
16-byte GUIDs and build the lookup, key `i` inserted at iteration `i`. -/
def buildLookupGo : List Bytes → Nat → Lookup → Lookup
  | [], _, acc => acc
  | g :: gs, i, acc => buildLookupGo gs (i + 1) (lkInsert acc g i)

def buildLookup (gs : List Bytes) : Lookup :=
  buildLookupGo gs 0 []

/-- One 16-byte GUID row; fewer than 16 bytes is an invalid-data error. -/
def readGuid16 (data : Bytes) (pos : Nat) : Except MErr (Bytes × Nat) :=
  let r := readBytesTol data pos 16
  if r.1.length = 16 then .ok (r.1, r.2) else .error .invalidData

/-- One 20-byte SHA row: a short read is zero-padded, never an error. -/
def readSha20 (data : Bytes) (pos : Nat) : Except MErr (Bytes × Nat) :=
  let r := readBytesTol data pos 20
  if r.1.length = 20 then .ok (r.1, r.2)
  else .ok (r.1 ++ List.replicate (20 - r.1.length) 0, r.2)

/-- Zip the six chunk columns back into row-major `Chunk`s. -/
def mkChunks : List Bytes → List Nat → List Bytes → List Nat → List Nat →
    List Nat → List Chunk
  | g :: gs, h :: hs, s :: ss, gr :: grs, w :: ws, f :: fs =>
    ⟨g, h, s, gr, w, f⟩ :: mkChunks gs hs ss grs ws fs
  | _, _, _, _, _, _ => []

/-- `ChunkDataList`. -/
structure ChunkDataList where
  dataSize : Nat
  dataVersion : Nat
  count : Nat
  elements : List Chunk
  chunkLookup : Lookup
  deriving DecidableEq, Repr

/-- The column-major body of `ChunkDataList::read`, decoded from the
captured window `inner` (fresh cursor at 0). -/
def chunkListInner (ds : Nat) (inner : Bytes) : Except MErr ChunkDataList :=
  match readU8 inner 0 with
  | .error e => .error e
  | .ok (dv, q1) =>
  match readU32 inner q1 with
  | .error e => .error e
  | .ok (count, q2) =>
    if 1000000 < count then .error .invalidData
    else
      match readN readGuid16 count inner q2 with
      | .error e => .error e
      | .ok (guids, q3) =>
      match readN readU64 count inner q3 with
      | .error e => .error e
      | .ok (hashes, q4) =>
      match readN readSha20 count inner q4 with
      | .error e => .error e
      | .ok (shas, q5) =>
      match readN readU8 count inner q5 with
      | .error e => .error e
      | .ok (groups, q6) =>
      match readN readU32 count inner q6 with
      | .error e => .error e
      | .ok (windows, q7) =>
      match readN readU64 count inner q7 with
      | .error e => .error e
      | .ok (fsizes, _) =>
        .ok ⟨ds, dv, count, mkChunks guids hashes shas groups windows fsizes,
          buildLookup guids⟩

/-- `ChunkDataList::read` on the outer cursor: `u32` section size
(validated to 1..1 GiB), tolerant bulk read of `data_size - 4` bytes
(a shortfall is only logged), then the column passes inside the window.
Returns the list and the outer position after the bulk read. -/
def chunkListRead (data : Bytes) (pos : Nat) :
    Except MErr (ChunkDataList × Nat) :=
  match readU32 data pos with
  | .error e => .error e
  | .ok (ds, p1) =>
    if ds = 0 ∨ GB < ds then .error .invalidData
    else
      let rb := readBytesTol data p1 (ds - 4)
      match chunkListInner ds rb.1 with
      | .error e => .error e
      | .ok cl => .ok (cl, rb.2)

/-- `ChunkPart` (src/types/chunk.rs); `parentGuid` is the 16 raw bytes. -/
structure ChunkPart where
  dataSize : Nat
  parentGuid : Bytes
  offset : Nat
  size : Nat
  chunk : Option Chunk
  deriving DecidableEq, Repr

/-- `ChunkPart::read`.  Returns the cursor position also on error (the
caller's loop continues from wherever the failed read stopped). -/
def chunkPartRead (lookup : Lookup) (chunks : List Chunk) (data : Bytes)
    (pos : Nat) : Except MErr ChunkPart × Nat :=
  let r1 := readBytesTol data pos 4
  if r1.1.length < 4 then (.error .ioErr, r1.2)
  else
    let ds := leVal r1.1
    let r2 := readBytesTol data r1.2 16
    if r2.1.length ≠ 16 then (.error .invalidData, r2.2)
    else
      match lkFind lookup r2.1 with
      | none => (.error .invalidData, r2.2)
      | some idx =>
        let r3 := readBytesTol data r2.2 4
        if r3.1.length < 4 then (.error .ioErr, r3.2)
        else
          let r4 := readBytesTol data r3.2 4
          if r4.1.length < 4 then (.error .ioErr, r4.2)
          else
            (.ok ⟨ds, r2.1, leVal r3.1, leVal r4.1, chunks[idx]?⟩, r4.2)

/-! ## File directory (src/types/file.rs) -/

/-- `FileManifest`; string fields hold the raw bytes. -/
structure FileManifest where
  filename : Bytes
  symlinkTarget : Bytes
  shaHash : Bytes
  fileMetaFlags : Nat
  installTags : List Bytes
  chunkParts : List ChunkPart
  fileSize : Nat
  mimeType : Bytes
  deriving DecidableEq, Repr

/-- `FileManifestList`. -/
structure FileManifestList where
  dataSize : Nat
  dataVersion : Nat
  count : Nat
  fileManifestList : List FileManifest
  deriving DecidableEq, Repr

/-- The per-file chunk-part loop: read up to `n` parts, stopping (without
an error) at the first failed part read and keeping the parts already
decoded; also accumulates the sum of the kept part sizes
(`file_chunk_size`).  Returns the parts, the sum, and the cursor
position. -/
def readParts (lookup : Lookup) (chunks : List Chunk) (data : Bytes) :
    Nat → Nat → List ChunkPart × Nat × Nat
  | 0, pos => ([], 0, pos)
  | n + 1, pos =>
    match chunkPartRead lookup chunks data pos with
    | (.error _, p) => ([], 0, p)
    | (.ok c, p) =>
      let r := readParts lookup chunks data n p
      (c :: r.1, c.size + r.2.1, r.2.2)

/-- The chunk-parts pass over all files: each file reads its own `u32`
part count (a failure of this read is a hard error); a count above
10,000 skips the file's parts (`continue`); a file none of whose parts
decoded keeps an empty list and size 0. -/
def readFileParts (lookup : Lookup) (chunks : List Chunk) (data : Bytes) :
    Nat → Nat → Except MErr (List (List ChunkPart × Nat) × Nat)
  | 0, pos => .ok ([], pos)
  | n + 1, pos =>
    match readU32 data pos with
    | .error e => .error e
    | .ok (cnt, p1) =>
      if 10000 < cnt then
        match readFileParts lookup chunks data n p1 with
        | .error e => .error e
        | .ok (rest, q) => .ok (([], 0) :: rest, q)
      else
        let r := readParts lookup chunks data cnt p1
        match readFileParts lookup chunks data n r.2.2 with
        | .error e => .error e
        | .ok (rest, q) =>
          if r.1.length = 0 then .ok (([], 0) :: rest, q)
          else .ok ((r.1, r.2.1) :: rest, q)

/-- Version-2 pass 1: per file, read a `u32` array size and seek past
`16 * size` bytes (the `LimitedReader` seek clamps and never fails); a
failed size read stops the whole version-2 parsing. -/
def v2SkipArrays (data : Bytes) : Nat → Nat → Bool × Nat
  | 0, pos => (true, pos)
  | n + 1, pos =>
    match readU32 data pos with
    | .error _ => (false, pos)
    | .ok (sz, p) => v2SkipArrays data n (min (p + 16 * sz) data.length)

/-- Version-2 pass 2: read MIME-type strings until a read fails; the
files before the failure keep their MIME types. -/
def v2Mimes (data : Bytes) : Nat → Nat → List Bytes
  | 0, _ => []
  | n + 1, pos =>
    match readFString data pos with
    | .error _ => []
    | .ok (s, p) => s :: v2Mimes data n p

/-- Zip the column results into `FileManifest` rows (`mime_type` is
assigned by a later pass and starts empty, like `Default`). -/
def mkFiles : List Bytes → List Bytes → List Bytes → List Nat →
    List (List Bytes) → List (List ChunkPart × Nat) → List FileManifest
  | nm :: nms, sy :: sys, sh :: shs, fl :: fls, tg :: tgs, pr :: prs =>
    ⟨nm, sy, sh, fl, tg, pr.1, pr.2, []⟩ ::
      mkFiles nms sys shs fls tgs prs
  | _, _, _, _, _, _ => []

/-- Assign the decoded MIME types to the leading files. -/
def applyMimes : List FileManifest → List Bytes → List FileManifest
  | fs, [] => fs
  | [], _ => []
  | f :: fs, m :: ms => { f with mimeType := m } :: applyMimes fs ms

/-- The body of `FileManifestList::read` inside the captured window. -/
def fileListInner (lookup : Lookup) (chunks : List Chunk) (ds dv count : Nat)
    (inner : Bytes) : Except MErr FileManifestList :=
  match readN readFString count inner 0 with
  | .error e => .error e
  | .ok (names, q1) =>
  match readN readFString count inner q1 with
  | .error e => .error e
  | .ok (symlinks, q2) =>
  match readN readSha20 count inner q2 with
  | .error e => .error e
  | .ok (shas, q3) =>
  match readN readU8 count inner q3 with
  | .error e => .error e
  | .ok (flags, q4) =>
  match readN readFStringArray count inner q4 with
  | .error e => .error e
  | .ok (tags, q5) =>
  match readFileParts lookup chunks inner count q5 with
  | .error e => .error e
  | .ok (parts, q6) =>
    let files := mkFiles names symlinks shas flags tags parts
    let files :=
      if 2 ≤ dv then
        let s := v2SkipArrays inner count q6
        if s.1 then applyMimes files (v2Mimes inner count s.2) else files
      else files
    .ok ⟨ds, dv, count, files⟩

/-- `FileManifestList::read`: `u32` section size (validated 1..1 GiB),
`u8` format version (validated ≤ 2), `u32` file count, tolerant bulk read
of `data_size` further bytes (shortfall only logged), count validated
≤ 1,000,000, then the column passes inside the window.  Returns the outer
position after the bulk read. -/
def fileListRead (data : Bytes) (pos : Nat) (cl : ChunkDataList) :
    Except MErr (FileManifestList × Nat) :=
  match readU32 data pos with
  | .error e => .error e
  | .ok (ds, p1) =>
    if ds = 0 ∨ GB < ds then .error .invalidData
    else
      match readU8 data p1 with
      | .error e => .error e
      | .ok (dv, p2) =>
        if 2 < dv then .error .invalidData
        else
          match readU32 data p2 with
          | .error e => .error e
          | .ok (count, p3) =>
            let rb := readBytesTol data p3 ds
            if 1000000 < count then .error .invalidData
            else
              match fileListInner cl.chunkLookup cl.elements ds dv count
                  rb.1 with
              | .error e => .error e
              | .ok fl => .ok (fl, rb.2)

/-! ## Unified model (src/types/manifest.rs) -/

/-- `Manifest`. -/
structure Manifest where
  header : ManifestHeader
  meta : Option ManifestMeta
  chunkList : Option ChunkDataList
  fileList : Option FileManifestList
  deriving DecidableEq, Repr

/-! ## JSON manifest variant (src/types/json_manifest.rs) -/

/-- `JsonFileChunkPart`; the three JSON strings as raw bytes. -/
structure JsonFileChunkPart where
  guid : Bytes
  offset : Bytes
  size : Bytes
  deriving DecidableEq, Repr

/-- `JsonFileManifest`. -/
structure JsonFileManifest where
  filename : Bytes
  fileHash : Bytes
  isUnixExecutable : Option Bool
  fileChunkParts : List JsonFileChunkPart
  deriving DecidableEq, Repr

/-- `JsonManifest` (the fields `to_manifest` consumes). -/
structure JsonManifest where
  manifestFileVersion : Bytes
  isFileData : Bool
  appId : Bytes
  appNameString : Bytes
  buildVersionString : Bytes
  launchExeString : Bytes
  launchCommand : Bytes
  prereqIds : List Bytes
  prereqName : Bytes
  prereqPath : Bytes
  prereqArgs : Bytes
  fileManifestList : List JsonFileManifest
  deriving DecidableEq, Repr

/-- The externals the decoder calls but does not implement: zlib inflate
(`miniz_oxide`, `None` = corrupt stream), SHA-1 (as raw 20 bytes; the hex
encoding both sides of every Rust comparison is injective), the JSON
sniff beyond the first-byte check (utf8 + serde parse + field presence),
the full serde parse to a `JsonManifest`, `Uuid::from_str` normalised to
the 16 GUID bytes (`None` = malformed GUID), and `DefaultHasher` over a
GUID.  Theorems quantify over all behaviours of these. -/
structure Ext where
  inflate : Bytes → Option Bytes
  sha1 : Bytes → Bytes
  jsonDetect : Bytes → Bool
  jsonParse : Bytes → Option JsonManifest
  uuidParse : Bytes → Option Bytes
  hash64 : Bytes → Nat

/-- Decimal digits of a value as ASCII bytes (`to_string`). -/
def decDigits (n : Nat) : Bytes :=
  (Nat.toDigits 10 n).map Char.toNat

/-- Rust `str::parse` for an unsigned integer type with exclusive upper
bound `bound`: an optional leading `+`, then one or more ASCII digits,
and the value must fit. -/
def parseRustNat (bound : Nat) (s : Bytes) : Option Nat :=
  let t := match s with
    | 0x2B :: rest => rest
    | _ => s
  if t.length = 0 then none
  else if t.all (fun c => 0x30 ≤ c % 256 ∧ c % 256 ≤ 0x39) then
    let v := t.foldl (fun acc c => acc * 10 + (c % 256 - 0x30)) 0
    if v < bound then some v else none
  else none

/-- `JsonManifest::parse_hex_string` (actually decimal, `u64`). -/
def parseHexString (s : Bytes) : Option Nat :=
  parseRustNat (2 ^ 64) s

/-- `JsonManifest::parse_version`: strings longer than 8 bytes keep only
their last 8 bytes; then a `u32` parse. -/
def parseVersion (s : Bytes) : Option Nat :=
  if 8 < s.length then parseRustNat (2 ^ 32) (s.drop (s.length - 8))
  else parseRustNat (2 ^ 32) s

/-- `JsonManifest::parse_app_id` (`u32`). -/
def parseAppId (s : Bytes) : Option Nat :=
  parseRustNat (2 ^ 32) s

/-- `JsonManifest::parse_file_hash`: exactly 60 bytes, consumed as 20
3-digit decimal byte groups. -/
def parseHashGroups : Bytes → Option Bytes
  | [] => some []
  | a :: b :: c :: rest =>
    match parseRustNat 256 [a, b, c] with
    | none => none
    | some v =>
      match parseHashGroups rest with
      | none => none
      | some vs => some (v :: vs)
  | _ => none

def parseFileHash (s : Bytes) : Option Bytes :=
  if s.length = 60 then parseHashGroups s else none

/-- `HashSet::insert` with insertion-order iteration (the real iteration
order is unspecified; no claim depends on it). -/
def setInsert (s : List Bytes) (g : Bytes) : List Bytes :=
  if g ∈ s then s else s ++ [g]

/-- The GUID-collection pass over one file's chunk parts. -/
def collectGuidsParts (up : Bytes → Option Bytes) :
    List JsonFileChunkPart → List Bytes → Except MErr (List Bytes)
  | [], acc => .ok acc
  | p :: ps, acc =>
    match up p.guid with
    | none => .error .invalidData
    | some g => collectGuidsParts up ps (setInsert acc g)

/-- The GUID-collection pass over all files. -/
def collectGuidsFiles (up : Bytes → Option Bytes) :
    List JsonFileManifest → List Bytes → Except MErr (List Bytes)
  | [], acc => .ok acc
  | f :: fs, acc =>
    match collectGuidsParts up f.fileChunkParts acc with
    | .error e => .error e
    | .ok acc2 => collectGuidsFiles up fs acc2

/-- 1 MiB, the nominal chunk size synthesized for JSON manifests. -/
def STANDARD_CHUNK_SIZE : Nat := 1024 * 1024

/-- A synthesized chunk for a JSON-manifest GUID: placeholder hashes
derived deterministically from the GUID, nominal 1 MiB sizes. -/
def mkJsonChunk (ext : Ext) (g : Bytes) : Chunk :=
  ⟨g, ext.hash64 g, ext.sha1 g, 0, STANDARD_CHUNK_SIZE, STANDARD_CHUNK_SIZE⟩

/-- Convert one file's `FileChunkParts`; any malformed GUID or
offset/size string aborts with an invalid-structure error.  The Rust
`as u32` casts truncate the parsed `u64` values. -/
def convParts (up : Bytes → Option Bytes) :
    List JsonFileChunkPart → Except MErr (List ChunkPart)
  | [] => .ok []
  | p :: ps =>
    match up p.guid with
    | none => .error .invalidData
    | some g =>
      match parseHexString p.offset with
      | none => .error .invalidData
      | some off =>
        match parseHexString p.size with
        | none => .error .invalidData
        | some sz =>
          match convParts up ps with
          | .error e => .error e
          | .ok rest =>
            .ok (⟨0, g, off % 2 ^ 32, sz % 2 ^ 32, none⟩ :: rest)

/-- Sum of the part sizes (`file_size` of a JSON-origin file). -/
def sumSizes (ps : List ChunkPart) : Nat :=
  ps.foldr (fun p acc => p.size + acc) 0

/-- Convert the JSON file list; a bad hash string is an
invalid-structure error. -/
def convFiles (up : Bytes → Option Bytes) :
    List JsonFileManifest → Except MErr (List FileManifest)
  | [] => .ok []
  | f :: fs =>
    match convParts up f.fileChunkParts with
    | .error e => .error e
    | .ok parts =>
      match parseFileHash f.fileHash with
      | none => .error .invalidData
      | some hash =>
        match convFiles up fs with
        | .error e => .error e
        | .ok rest =>
          .ok (⟨f.filename, [], hash,
            if f.isUnixExecutable.getD false then 4 else 0, [], parts,
            sumSizes parts, []⟩ :: rest)

/-- The identity bytes hashed by `generate_manifest_sha1_hash`. -/
def jsonIdentityBytes (j : JsonManifest) : Bytes :=
  j.manifestFileVersion ++ j.appId ++ j.appNameString ++
    j.buildVersionString ++ j.launchExeString ++
    decDigits j.fileManifestList.length

/-- `JsonManifest::to_manifest`. -/
def toManifest (ext : Ext) (j : JsonManifest) : Except MErr Manifest :=
  match parseVersion j.manifestFileVersion with
  | none => .error .invalidData
  | some ver =>
    let header : ManifestHeader :=
      ⟨0, 0, 0, ext.sha1 (jsonIdentityBytes j), 0, i32OfNat ver⟩
    match parseAppId j.appId with
    | none => .error .invalidData
    | some appId =>
      let meta : ManifestMeta :=
        ⟨0, 0, 0, true, i32OfNat appId, j.appNameString,
          j.buildVersionString, j.launchExeString, [], [], [], [], [],
          none⟩
      match collectGuidsFiles ext.uuidParse j.fileManifestList [] with
      | .error e => .error e
      | .ok guidSet =>
        let chunkList : ChunkDataList :=
          ⟨0, 0, guidSet.length, guidSet.map (mkJsonChunk ext),
            buildLookup guidSet⟩
        match convFiles ext.uuidParse j.fileManifestList with
        | .error e => .error e
        | .ok files =>
          .ok ⟨header, some meta, some chunkList,
            some ⟨0, 0, files.length, files⟩⟩

/-- `is_json_manifest`: first byte `{`, then the sniff collaborator
(utf8 + serde parse + presence of the two required fields). -/
def isJsonManifest (jd : Bytes → Bool) (buf : Bytes) : Bool :=
  match buf.head? with
  | some b => b % 256 == 0x7B && jd buf
  | none => false

/-! ## Top-level pipeline (src/lib.rs `process_manifest_data`) -/

/-- A computation that can yield a value, a typed error, or hit a Rust
panic (index out of bounds / arithmetic overflow). -/
inductive PanicOr (α : Type) where
  | ok (a : α)
  | err (e : MErr)
  | panic
  deriving DecidableEq, Repr

/-- Payload framing (lib.rs lines 70–82): `buf[header_size ..
header_size + size]` with the size picked by the compression flag.
`let end = start + size` overflows `usize` for adversarial headers — a
panic in a debug build, and a wrapped `end` makes the later
`&buf[start..end]` slice panic in release — modelled as `.panic`;
the explicit bounds check is the `payload out of bounds` error. -/
def frameStart (h : ManifestHeader) : Nat :=
  usizeOfI32 h.headerSize

def frameSize (h : ManifestHeader) : Nat :=
  usizeOfI32
    (if h.isCompressed then h.dataSizeCompressed else h.dataSizeUncompressed)

def framePayload (h : ManifestHeader) (buf : Bytes) : PanicOr Bytes :=
  if 2 ^ 64 ≤ frameStart h + frameSize h then .panic
  else if buf.length ≤ frameStart h ∨
      buf.length < frameStart h + frameSize h then
    .err .invalidData
  else .ok (bytesAt buf (frameStart h) (frameSize h))

/-- The three zlib compression-level marker bytes. -/
def zlibMarker (b : Nat) : Bool :=
  b % 256 == 0x01 || b % 256 == 0x9C || b % 256 == 0xDA

/-- The forward scan for a `0x78 ..` zlib signature: first offset
`< len - 2` whose byte is `0x78` and whose successor is a marker. -/
def findSigFrom (pc : Bytes) : Nat → Nat → Option Nat
  | _, 0 => none
  | off, fuel + 1 =>
    if off < pc.length - 2 then
      if pc.getD off 0 % 256 == 0x78 && zlibMarker (pc.getD (off + 1) 0) then
        some off
      else findSigFrom pc (off + 1) fuel
    else none

def findSig (pc : Bytes) : Option Nat :=
  findSigFrom pc 0 pc.length

/-- Lines 88–160 of lib.rs: the decompression stage.  On the compressed
branch, a payload shorter than 2 bytes panics (`len - 2` underflow in a
debug build; `payload_compressed[offset]` out of bounds in release).
On the uncompressed branch the `&&` chain indexes byte 10 after only
checking `len > 9`, so a 10-byte payload whose byte 9 is `0x78`
panics.  A failed inflate is a hard `Inflate` error; a missing signature
falls back to the raw bytes. -/
def decompressStage (infl : Bytes → Option Bytes) (h : ManifestHeader)
    (pc : Bytes) : PanicOr Bytes :=
  if h.isCompressed then
    if pc.length < 2 then .panic
    else
      match findSig pc with
      | some off =>
        match infl (pc.drop off) with
        | some d => .ok d
        | none => .err .inflateErr
      | none => .ok pc
  else
    if 9 < pc.length ∧ pc.getD 9 0 % 256 = 0x78 then
      if pc.length = 10 then .panic
      else if zlibMarker (pc.getD 10 0) then
        match infl (pc.drop 9) with
        | some d => .ok d
        | none => .err .inflateErr
      else .ok pc
    else .ok pc

/-- The three payload sections (lib.rs lines 181–233): metadata
(recoverable), chunk directory, file directory. -/
def sectionsRead (payload : Bytes) :
    Except MErr (Option ManifestMeta × ChunkDataList × FileManifestList) :=
  let am := afterMeta payload 0
  match chunkListRead payload am.2 with
  | .error e => .error e
  | .ok (cl, p2) =>
    match fileListRead payload p2 cl with
    | .error e => .error e
    | .ok (fl, _) => .ok (am.1, cl, fl)

/-- The binary branch of `process_manifest_data`: header, payload
framing, encryption rejection, decompression, sections. -/
def binaryDecode (infl : Bytes → Option Bytes) (buf : Bytes) :
    PanicOr (ManifestHeader × Bytes × Option ManifestMeta × ChunkDataList ×
      FileManifestList) :=
  match headerRead buf with
  | .error e => .err e
  | .ok h =>
    match framePayload h buf with
    | .panic => .panic
    | .err e => .err e
    | .ok pc =>
      if h.isEncrypted then .err .encryptedErr
      else
        match decompressStage infl h pc with
        | .panic => .panic
        | .err e => .err e
        | .ok payload =>
          match sectionsRead payload with
          | .error e => .err e
          | .ok (m, cl, fl) => .ok (h, payload, m, cl, fl)

/-- The overall decode outcome.  `ok` additionally carries the advisory
SHA-1 warning flag (`true` when the recomputed payload hash differs from
the header hash); the Rust code surfaces this only as a log warning. -/
inductive Outcome where
  | ok (m : Manifest) (shaWarn : Bool)
  | err (e : MErr)
  | panic
  deriving DecidableEq, Repr

/-- `process_manifest_data`. -/
def processManifestData (ext : Ext) (buf : Bytes) : Outcome :=
  if isJsonManifest ext.jsonDetect buf then
    match ext.jsonParse buf with
    | none => .err .invalidData
    | some j =>
      match toManifest ext j with
      | .error e => .err e
      | .ok m => .ok m false
  else
    match binaryDecode ext.inflate buf with
    | .panic => .panic
    | .err e => .err e
    | .ok (h, payload, meta, cl, fl) =>
      .ok ⟨h, meta, some cl, some fl⟩ (ext.sha1 payload != h.sha1Hash)

/-- The decode result with the advisory warning flag stripped. -/
def stripWarn : Outcome → PanicOr Manifest
  | .ok m _ => .ok m
  | .err e => .err e
  | .panic => .panic

/-! ## Result projections (used to state closed witness facts) -/

def exOk {α : Type} : Except MErr α → Bool
  | .ok _ => true
  | .error _ => false

def clResCount : Except MErr (ChunkDataList × Nat) → Option Nat
  | .ok (cl, _) => some cl.count
  | .error _ => none

def clResElems : Except MErr (ChunkDataList × Nat) → Option Nat
  | .ok (cl, _) => some cl.elements.length
  | .error _ => none

def outMeta : Outcome → Option (Option ManifestMeta)
  | .ok m _ => some m.meta
  | _ => none

def outChunkIsSome : Outcome → Bool
  | .ok m _ => m.chunkList.isSome
  | _ => false

def mfFirstPart (m : Manifest) : Option ChunkPart :=
  match m.fileList with
  | some fl =>
    match fl.fileManifestList with
    | f :: _ => f.chunkParts.head?
    | [] => none
  | none => none

def firstPartChunkOf : Except MErr Manifest → Option (Option Chunk)
  | .ok m => (mfFirstPart m).map (fun pt => pt.chunk)
  | .error _ => none

def firstPartParentFound : Except MErr Manifest → Bool
  | .ok m =>
    (match m.chunkList, mfFirstPart m with
     | some cl, some pt => (lkFind cl.chunkLookup pt.parentGuid).isSome
     | _, _ => false)
  | .error _ => false

/-! ## Concrete inputs used by witnesses and counterexamples -/

/-- A concrete `Ext`: inflate always fails, SHA-1 constantly empty, no
JSON sniffing, no UUIDs parse, hash 0.  (The concrete binary inputs below
are uncompressed non-JSON buffers, so these are never consulted on the
happy path except `sha1`, which makes the advisory warning fire.) -/
def extC : Ext :=
  ⟨fun _ => none, fun _ => [], fun _ => false, fun _ => none,
    fun _ => none, fun _ => 0⟩

/-- `extC` with a SHA-1 that matches the all-zero header hashes below. -/
def extCZ : Ext :=
  { extC with sha1 := fun _ => List.replicate 20 0 }

/-- The 16 GUID bytes every string parses to under `extJ`. -/
def g16 : Bytes := List.replicate 16 7

/-- `extC` with a UUID parser that accepts everything (as `g16`). -/
def extJ : Ext :=
  { extC with uuidParse := fun _ => some g16 }

/-- A 60-character FileHash string of ASCII zeros (twenty `000` groups). -/
def hash60 : Bytes := List.replicate 60 0x30

/-- A chunk part with GUID string `"g"`, Offset `"0"`, Size `"5"`. -/
def jpC9 : JsonFileChunkPart := ⟨[0x67], [0x30], [0x35]⟩

/-- One JSON file named `"a"` with one chunk part. -/
def jfC9 : JsonFileManifest := ⟨[0x61], hash60, none, [jpC9]⟩

/-- A well-formed JSON manifest: version `"1"`, app id `"0"`, one file
with one chunk part. -/
def jC9 : JsonManifest :=
  ⟨[0x31], true, [0x30], [], [], [], [], [], [], [], [], [jfC9]⟩

/-- The manifest `jC9` converts to under `extJ`. -/
def jmC9 : Manifest :=
  ⟨⟨0, 0, 0, [], 0, 1⟩,
    some ⟨0, 0, 0, true, 0, [], [], [], [], [], [], [], [], none⟩,
    some ⟨0, 0, 1, [⟨g16, 0, [], 0, 1048576, 1048576⟩], [(g16, 0)]⟩,
    some ⟨0, 0, 1,
      [⟨[0x61], [], List.replicate 20 0, 0, [], [⟨0, g16, 0, 5, none⟩], 5,
        []⟩]⟩⟩

/-- Wrap a payload in a 41-byte uncompressed binary header
(`header_size = 41`, `data_size_uncompressed = payload.length`,
all-zero hash, flags 0, version 0).  Assumes `payload.length < 65536`. -/
def mkTestBuf (payload : Bytes) : Bytes :=
  [0x0C, 0xC0, 0xBE, 0x44, 41, 0, 0, 0,
    payload.length % 256, payload.length / 256 % 256, 0, 0,
    0, 0, 0, 0] ++ List.replicate 20 0 ++ [0, 0, 0, 0, 0] ++ payload

/-- Payload whose metadata section declares size 0 (so the metadata read
fails immediately), followed by well-formed empty chunk and file
sections that start at offset 4, not at the declared boundary 0. -/
def payloadC3 : Bytes :=
  [0, 0, 0, 0] ++ [9, 0, 0, 0] ++ [1] ++ [0, 0, 0, 0] ++
    [9, 0, 0, 0] ++ [0] ++ [0, 0, 0, 0]

def bufC3 : Bytes := mkTestBuf payloadC3

/-- Payload whose chunk section declares 30 bytes but only 21 are
available after the size field: the first GUID row fits, the second is
cut by the shortfall. -/
def payloadC2 : Bytes :=
  [0, 0, 0, 0] ++ [30, 0, 0, 0] ++ [1] ++ [2, 0, 0, 0] ++
    List.replicate 16 9

def bufC2 : Bytes := mkTestBuf payloadC2

/-- The GUID of the single chunk in the full test manifest. -/
def g9 : Bytes := List.replicate 16 9

/-- A complete chunk section: one chunk, declared size 66 (exact). -/
def chunkSec : Bytes :=
  [66, 0, 0, 0] ++ [1] ++ [1, 0, 0, 0] ++ g9 ++ List.replicate 8 0 ++
    List.replicate 20 0 ++ [0] ++ [4, 0, 0, 0] ++ List.replicate 8 0

/-- The file-section window: one file, empty name/symlink/tags, one
28-byte chunk part referencing `g9` with size 7. -/
def fileInner : Bytes :=
  [0, 0, 0, 0] ++ [0, 0, 0, 0] ++ List.replicate 20 0 ++ [0] ++
    [0, 0, 0, 0] ++ [1, 0, 0, 0] ++
    ([0, 0, 0, 0] ++ g9 ++ [0, 0, 0, 0] ++ [7, 0, 0, 0])

def fileSec : Bytes := [65, 0, 0, 0] ++ [0] ++ [1, 0, 0, 0] ++ fileInner

/-- Failing metadata section + one-chunk chunk section + one-file file
section: a complete well-formed binary manifest payload (144 bytes). -/
def payloadFull : Bytes := [0, 0, 0, 0] ++ chunkSec ++ fileSec

def bufFull : Bytes := mkTestBuf payloadFull

def chunkFull : Chunk := ⟨g9, 0, List.replicate 20 0, 0, 4, 0⟩

def partFull : ChunkPart := ⟨0, g9, 0, 7, some chunkFull⟩

def fileFull : FileManifest :=
  ⟨[], [], List.replicate 20 0, 0, [], [partFull], 7, []⟩

def clFull : ChunkDataList := ⟨66, 1, 1, [chunkFull], [(g9, 0)]⟩

def flFull : FileManifestList := ⟨65, 0, 1, [fileFull]⟩

/-- The manifest `bufFull` decodes to. -/
def mFull : Manifest :=
  ⟨⟨41, 144, 0, List.replicate 20 0, 0, 0⟩, none, some clFull, some flFull⟩

/-- Chunk-section window with a declared size of 100 but only 62 bytes
available: a shortfall that still covers all columns of its one row. -/
def dataC2W : Bytes :=
  [100, 0, 0, 0] ++ [1] ++ [1, 0, 0, 0] ++ List.replicate 16 9 ++
    List.replicate 8 0 ++ List.replicate 20 0 ++ [0] ++ [4, 0, 0, 0] ++
    List.replicate 8 0

/-- A 41-byte header: magic, `header_size = 41`, `data_size_uncompressed
= 22`, zero hash, flags 0, version 5. -/
def bufHdr : Bytes :=
  [0x0C, 0xC0, 0xBE, 0x44,   -- magic
   41, 0, 0, 0,              -- header_size
   22, 0, 0, 0,              -- data_size_uncompressed
   0, 0, 0, 0,               -- data_size_compressed
   0, 0, 0, 0, 0, 0, 0, 0, 0, 0, 0, 0, 0, 0, 0, 0, 0, 0, 0, 0,  -- sha1
   0,                        -- stored_as
   5, 0, 0, 0]               -- version

/-- The header value that `bufHdr` decodes to. -/
def hdrVal : ManifestHeader :=
  ⟨41, 22, 0, [0, 0, 0, 0, 0, 0, 0, 0, 0, 0, 0, 0, 0, 0, 0, 0, 0, 0, 0, 0],
    0, 5⟩

end EgdataManifest

namespace EgdataManifest

instance {ε α : Type} [DecidableEq ε] [DecidableEq α] :
    DecidableEq (Except ε α) := fun x y =>
  match x, y with
  | .ok a, .ok b =>
    if h : a = b then isTrue (by rw [h])
    else isFalse (fun hh => h (Except.ok.inj hh))
  | .error a, .error b =>
    if h : a = b then isTrue (by rw [h])
    else isFalse (fun hh => h (Except.error.inj hh))
  | .ok _, .error _ => isFalse (fun hh => Except.noConfusion hh)
  | .error _, .ok _ => isFalse (fun hh => Except.noConfusion hh)

/-! ## Basic cursor lemmas -/

/-- Reading from a truncated buffer reads a prefix of the full read. -/
theorem bytesAt_take (buf : Bytes) (k p n : Nat) :
    bytesAt (buf.take k) p n = (bytesAt buf p n).take (k - p) := by
  simp only [bytesAt, List.drop_take, List.take_take]
  rw [Nat.min_comm]

/-- Unpack a successful `readAt`. -/
theorem readAt_some {buf : Bytes} {p n : Nat} {bs : Bytes}
    (h : readAt buf p n = some bs) :
    bs = bytesAt buf p n ∧ (bytesAt buf p n).length = n := by
  simp only [readAt] at h
  split at h
  next hl => exact ⟨(Option.some.inj h).symm, hl⟩
  next hl => exact absurd h (by simp)

/-- A full-width read out of a truncated buffer agrees with the read out of
the whole buffer. -/
theorem readAt_take {buf : Bytes} {k p n : Nat} {bs : Bytes}
    (h : readAt (buf.take k) p n = some bs) : readAt buf p n = some bs := by
  obtain ⟨hbs, hlen⟩ := readAt_some h
  have hle : (bytesAt buf p n).length ≤ n := by
    simpa [bytesAt] using List.length_take_le n (buf.drop p)
  have ht : bytesAt (buf.take k) p n = (bytesAt buf p n).take (k - p) :=
    bytesAt_take buf k p n
  have hmin : min (k - p) (bytesAt buf p n).length = n := by
    rw [ht] at hlen
    simpa using hlen
  have hfull : (bytesAt buf p n).length = n := by omega
  have heq : bytesAt buf p n = bs := by
    rw [hbs, ht]
    exact (List.take_of_length_le (by omega)).symm
  show (if (bytesAt buf p n).length = n then some (bytesAt buf p n) else none)
      = some bs
  rw [if_pos hfull, heq]

/-- Header decoding lifts from any truncation to the full buffer. -/
theorem headerRead_take {buf : Bytes} {k : Nat} {h : ManifestHeader}
    (hr : headerRead (buf.take k) = .ok h) : headerRead buf = .ok h := by
  unfold headerRead at hr
  split at hr
  · exact absurd hr (by simp)
  next mg h0 =>
    split at hr
    · exact absurd hr (by simp)
    next hm =>
      split at hr
      next hsb dsub dscb hashb sab h1 h2 h3 h4 h5 =>
        simp only [] at hr
        simp only [headerRead, readAt_take h0, readAt_take h1, readAt_take h2,
          readAt_take h3, readAt_take h4, readAt_take h5, if_neg hm]
        split at hr
        next h37 =>
          split at hr
          · exact absurd hr (by simp)
          next vb h6 =>
            rw [readAt_take h6]
            simp only [if_pos h37]
            exact hr
        next h37 =>
          simp only [if_neg h37]
          exact hr
      next =>
        exact absurd hr (by simp)

/-! ## C7: the optional trailing version field -/

/-- **C7.** For every binary manifest that decodes past the header stage,
`header.version` is 0 whenever `header_size ≤ 37` and otherwise is the
little-endian `i32` found at byte offset 37, immediately after the
storage-flags byte (offsets: 4 magic + 12 sizes + 20 hash + 1 flags = 37). -/
theorem headerVersion_spec (buf : Bytes) (h : ManifestHeader)
    (hr : headerRead buf = .ok h) :
    h.version =
      if h.headerSize ≤ 37 then 0 else i32OfNat (leVal (bytesAt buf 37 4)) := by
  unfold headerRead at hr
  split at hr
  · exact absurd hr (by simp)
  next mg h0 =>
    split at hr
    · exact absurd hr (by simp)
    next hm =>
      split at hr
      next hsb dsub dscb hashb sab h1 h2 h3 h4 h5 =>
        simp only [] at hr
        split at hr
        next h37 =>
          split at hr
          · exact absurd hr (by simp)
          next vb h6 =>
            have hs : h = ⟨i32OfNat (leVal hsb), i32OfNat (leVal dsub),
                i32OfNat (leVal dscb), hashb, leVal sab, i32OfNat (leVal vb)⟩ :=
              (Except.ok.inj hr).symm
            have hvb : vb = bytesAt buf 37 4 := (readAt_some h6).1
            subst hs
            simp only
            rw [if_neg (by omega), hvb]
        next h37 =>
          have hs : h = ⟨i32OfNat (leVal hsb), i32OfNat (leVal dsub),
              i32OfNat (leVal dscb), hashb, leVal sab, 0⟩ :=
            (Except.ok.inj hr).symm
          subst hs
          simp only
          rw [if_pos (by omega)]
      next =>
        exact absurd hr (by simp)

/-! ## Primitive read lemmas -/

theorem bytesAt_length_of_le {data : Bytes} {pos n : Nat}
    (h : pos + n ≤ data.length) : (bytesAt data pos n).length = n := by
  simp only [bytesAt, List.length_take, List.length_drop]
  omega

theorem readLE_full {w : Nat} {data : Bytes} {pos : Nat}
    (h : pos + w ≤ data.length) :
    readLE w data pos = .ok (leVal (bytesAt data pos w), pos + w) := by
  have hl : (bytesAt data pos w).length = w := bytesAt_length_of_le h
  simp only [readLE, readBytesTol]
  rw [show (data.drop pos).take w = bytesAt data pos w from rfl, hl]
  simp

theorem readGuid16_full {data : Bytes} {pos : Nat}
    (h : pos + 16 ≤ data.length) :
    readGuid16 data pos = .ok (bytesAt data pos 16, pos + 16) := by
  have hl : (bytesAt data pos 16).length = 16 := bytesAt_length_of_le h
  simp only [readGuid16, readBytesTol]
  rw [show (data.drop pos).take 16 = bytesAt data pos 16 from rfl, hl]
  simp

theorem readSha20_full {data : Bytes} {pos : Nat}
    (h : pos + 20 ≤ data.length) :
    readSha20 data pos = .ok (bytesAt data pos 20, pos + 20) := by
  have hl : (bytesAt data pos 20).length = 20 := bytesAt_length_of_le h
  simp only [readSha20, readBytesTol]
  rw [show (data.drop pos).take 20 = bytesAt data pos 20 from rfl, hl]
  simp

/-- A fixed-width reader that succeeds whenever `k` bytes remain can be
iterated `n` times whenever `k * n` bytes remain. -/
theorem readN_fixed {α : Type} {r : Bytes → Nat → Except MErr (α × Nat)}
    {k : Nat} {data : Bytes}
    (hr : ∀ pos, pos + k ≤ data.length → ∃ v, r data pos = .ok (v, pos + k)) :
    ∀ (n pos : Nat), pos + k * n ≤ data.length →
      ∃ vs, readN r n data pos = .ok (vs, pos + k * n) ∧ vs.length = n := by
  intro n
  induction n with
  | zero =>
    intro pos h
    exact ⟨[], by simp [readN], rfl⟩
  | succ n ih =>
    intro pos h
    rw [Nat.mul_succ] at h
    obtain ⟨v, hv⟩ := hr pos (by omega)
    obtain ⟨vs, hvs, hlen⟩ := ih (pos + k) (by omega)
    refine ⟨v :: vs, ?_, by simp [hlen]⟩
    simp only [readN, hv, hvs]
    have harith : pos + k + k * n = pos + k * (n + 1) := by
      rw [Nat.mul_succ]; omega
    rw [harith]

theorem readN_ok_length {α : Type} {r : Bytes → Nat → Except MErr (α × Nat)} :
    ∀ {n : Nat} {data : Bytes} {pos : Nat} {vs : List α} {q : Nat},
      readN r n data pos = .ok (vs, q) → vs.length = n := by
  intro n
  induction n with
  | zero =>
    intro data pos vs q h
    simp only [readN] at h
    obtain ⟨h1, _⟩ := Prod.mk.injEq .. ▸ Except.ok.inj h
    rw [← h1]
    rfl
  | succ n ih =>
    intro data pos vs q h
    simp only [readN] at h
    split at h
    · exact absurd h (by simp)
    next a p _ =>
      split at h
      · exact absurd h (by simp)
      next as q2 hrec =>
        obtain ⟨h1, _⟩ := Prod.mk.injEq .. ▸ Except.ok.inj h
        rw [← h1]
        simp [ih hrec]

/-! ## Lookup (HashMap) lemmas -/

theorem lkFind_cons_pos {p : Bytes × Nat} {k : Bytes} (l : Lookup)
    (hp : (p.1 == k) = true) : lkFind (p :: l) k = some p.2 := by
  simp [lkFind, List.find?, hp]

theorem lkFind_cons_neg {p : Bytes × Nat} {k : Bytes} (l : Lookup)
    (hp : (p.1 == k) = false) : lkFind (p :: l) k = lkFind l k := by
  simp [lkFind, List.find?, hp]

theorem lkFind_map_insert (k : Bytes) (v : Nat) :
    ∀ (l : Lookup), l.any (fun p => p.1 == k) = true →
      lkFind (l.map (fun p => if p.1 == k then (k, v) else p)) k = some v := by
  intro l
  induction l with
  | nil => intro h; simp at h
  | cons p l ih =>
    intro h
    by_cases hp : (p.1 == k) = true
    · rw [List.map_cons, if_pos hp]
      exact lkFind_cons_pos _ (by simp)
    · have h2 : l.any (fun p => p.1 == k) = true := by
        simp only [List.any_cons, hp, Bool.false_or] at h
        exact h
      have hpf : (p.1 == k) = false := by
        simpa using hp
      rw [List.map_cons, if_neg hp, lkFind_cons_neg _ hpf]
      exact ih h2

theorem lkFind_map_other (k : Bytes) (v : Nat) {q : Bytes} (hq : q ≠ k) :
    ∀ (l : Lookup),
      lkFind (l.map (fun p => if p.1 == k then (k, v) else p)) q =
        lkFind l q := by
  intro l
  have hkq : (k == q) = false := by
    simp only [beq_eq_false_iff_ne, ne_eq]
    intro hc
    exact hq hc.symm
  induction l with
  | nil => rfl
  | cons p l ih =>
    by_cases hp : (p.1 == k) = true
    · have hpk : p.1 = k := by simpa using hp
      have hpq : (p.1 == q) = false := by
        rw [hpk]
        exact hkq
      rw [List.map_cons, if_pos hp, lkFind_cons_neg _ hkq,
        lkFind_cons_neg _ hpq]
      exact ih
    · rw [List.map_cons, if_neg hp]
      by_cases hpq : (p.1 == q) = true
      · rw [lkFind_cons_pos _ hpq, lkFind_cons_pos _ hpq]
      · have hpqf : (p.1 == q) = false := by simpa using hpq
        rw [lkFind_cons_neg _ hpqf, lkFind_cons_neg _ hpqf]
        exact ih

theorem lkFind_insert_self (l : Lookup) (k : Bytes) (v : Nat) :
    lkFind (lkInsert l k v) k = some v := by
  unfold lkInsert
  by_cases hany : l.any (fun p => p.1 == k) = true
  · rw [if_pos hany]
    exact lkFind_map_insert k v l hany
  · rw [if_neg hany]
    have hnone : l.find? (fun p => p.1 == k) = none := by
      rw [List.find?_eq_none]
      intro x hx hxk
      exact hany (List.any_eq_true.mpr ⟨x, hx, hxk⟩)
    have happ : List.find? (fun p => p.1 == k) (l ++ [(k, v)]) =
        some (k, v) := by
      rw [List.find?_append, hnone]
      simp [List.find?]
    simp [lkFind, happ]

theorem lkFind_insert_other (l : Lookup) (k : Bytes) (v : Nat) {q : Bytes}
    (hq : q ≠ k) : lkFind (lkInsert l k v) q = lkFind l q := by
  unfold lkInsert
  have hkq : (k == q) = false := by
    simp only [beq_eq_false_iff_ne, ne_eq]
    intro hc
    exact hq hc.symm
  by_cases hany : l.any (fun p => p.1 == k) = true
  · rw [if_pos hany]
    exact lkFind_map_other k v hq l
  · rw [if_neg hany]
    have happ : List.find? (fun p => p.1 == q) (l ++ [(k, v)]) =
        List.find? (fun p => p.1 == q) l := by
      rw [List.find?_append]
      have hsingle : List.find? (fun p => p.1 == q) [(k, v)] = none := by
        simp only [List.find?, hkq]
      rw [hsingle, Option.or_none]
    simp only [lkFind, happ]

/-- Invariant of the GUID pass: every lookup entry points back at the
GUID it was inserted for. -/
theorem buildLookupGo_inv (gsAll : List Bytes) :
    ∀ (rest : List Bytes) (idx : Nat) (acc : Lookup),
      gsAll.drop idx = rest →
      (∀ g i, lkFind acc g = some i → gsAll[i]? = some g) →
      ∀ g i, lkFind (buildLookupGo rest idx acc) g = some i →
        gsAll[i]? = some g := by
  intro rest
  induction rest with
  | nil =>
    intro idx acc _ hacc
    simpa [buildLookupGo] using hacc
  | cons a rest ih =>
    intro idx acc hdrop hacc
    simp only [buildLookupGo]
    apply ih (idx + 1)
    · have h2 : (gsAll.drop idx).drop 1 = gsAll.drop (idx + 1) :=
        List.drop_drop ..
      rw [← h2, hdrop]
      rfl
    · intro g i hfind
      by_cases hg : g = a
      · subst hg
        rw [lkFind_insert_self] at hfind
        obtain rfl : idx = i := Option.some.inj hfind
        have h0 : (gsAll.drop idx)[0]? = gsAll[idx]? := by
          simpa using (List.getElem?_drop gsAll idx 0).symm
        rw [← h0, hdrop]
        simp
      · rw [lkFind_insert_other _ _ _ hg] at hfind
        exact hacc g i hfind

theorem buildLookup_inv (gs : List Bytes) :
    ∀ g i, lkFind (buildLookup gs) g = some i → gs[i]? = some g := by
  apply buildLookupGo_inv gs gs 0 []
  · rfl
  · intro g i h
    simp [lkFind] at h

theorem mkChunks_get :
    ∀ (gs : List Bytes) (hs : List Nat) (ss : List Bytes)
      (grs ws fs : List Nat) (i : Nat) (g : Bytes),
      hs.length = gs.length → ss.length = gs.length →
      grs.length = gs.length → ws.length = gs.length →
      fs.length = gs.length → gs[i]? = some g →
      ∃ c, (mkChunks gs hs ss grs ws fs)[i]? = some c ∧ c.guid = g := by
  intro gs
  induction gs with
  | nil =>
    intro hs ss grs ws fs i g _ _ _ _ _ hg
    simp at hg
  | cons a gs ih =>
    intro hs ss grs ws fs i g h1 h2 h3 h4 h5 hg
    match hs, ss, grs, ws, fs with
    | b :: hs, c :: ss, d :: grs, e :: ws, f :: fs =>
      cases i with
      | zero =>
        have ha : a = g := by simpa using hg
        exact ⟨⟨a, b, c, d, e, f⟩, by simp [mkChunks], ha⟩
      | succ i =>
        simp only [List.getElem?_cons_succ] at hg
        have := ih hs ss grs ws fs i g (by simpa using h1) (by simpa using h2)
          (by simpa using h3) (by simpa using h4) (by simpa using h5) hg
        simpa [mkChunks] using this
    | [], _, _, _, _ => simp at h1
    | _ :: _, [], _, _, _ => simp at h2
    | _ :: _, _ :: _, [], _, _ => simp at h3
    | _ :: _, _ :: _, _ :: _, [], _ => simp at h4
    | _ :: _, _ :: _, _ :: _, _ :: _, [] => simp at h5

/-- The chunk directory built by `ChunkDataList::read` has a consistent
lookup: every key resolves to an index carrying a chunk with that GUID. -/
theorem chunkListInner_wf {ds : Nat} {inner : Bytes} {cl : ChunkDataList}
    (h : chunkListInner ds inner = .ok cl) :
    ∀ g i, lkFind cl.chunkLookup g = some i →
      ∃ c, cl.elements[i]? = some c ∧ c.guid = g := by
  unfold chunkListInner at h
  split at h
  · exact absurd h (by simp)
  next dv q1 _ =>
  split at h
  · exact absurd h (by simp)
  next count q2 _ =>
  split at h
  · exact absurd h (by simp)
  split at h
  · exact absurd h (by simp)
  next guids q3 hguids =>
  split at h
  · exact absurd h (by simp)
  next hashes q4 hhashes =>
  split at h
  · exact absurd h (by simp)
  next shas q5 hshas =>
  split at h
  · exact absurd h (by simp)
  next groups q6 hgroups =>
  split at h
  · exact absurd h (by simp)
  next windows q7 hwindows =>
  split at h
  · exact absurd h (by simp)
  next fsizes q8 hfsizes =>
    have hcl : cl = ⟨ds, dv, count,
        mkChunks guids hashes shas groups windows fsizes,
        buildLookup guids⟩ := (Except.ok.inj h).symm
    subst hcl
    intro g i hfind
    have hgs : guids[i]? = some g := buildLookup_inv guids g i hfind
    have lg : guids.length = count := readN_ok_length hguids
    have lh : hashes.length = count := readN_ok_length hhashes
    have ls : shas.length = count := readN_ok_length hshas
    have lgr : groups.length = count := readN_ok_length hgroups
    have lw : windows.length = count := readN_ok_length hwindows
    have lf : fsizes.length = count := readN_ok_length hfsizes
    exact mkChunks_get guids hashes shas groups windows fsizes i g
      (by omega) (by omega) (by omega) (by omega) (by omega) hgs

theorem chunkListRead_wf {data : Bytes} {pos : Nat} {cl : ChunkDataList}
    {p2 : Nat} (h : chunkListRead data pos = .ok (cl, p2)) :
    ∀ g i, lkFind cl.chunkLookup g = some i →
      ∃ c, cl.elements[i]? = some c ∧ c.guid = g := by
  unfold chunkListRead at h
  split at h
  · exact absurd h (by simp)
  next ds p1 _ =>
    split at h
    · exact absurd h (by simp)
    dsimp only at h
    split at h
    · exact absurd h (by simp)
    next cl2 hinner =>
      obtain ⟨hcl, _⟩ := Prod.mk.injEq .. ▸ Except.ok.inj h
      rw [← hcl]
      exact chunkListInner_wf hinner

/-! ## File-directory lemmas -/

/-- Inversion of a successful `ChunkPart::read`: the parent GUID was
found in the lookup and `chunk` is the directory element at its index. -/
theorem chunkPartRead_ok {lookup : Lookup} {chunks : List Chunk}
    {data : Bytes} {pos : Nat} {pt : ChunkPart} {q : Nat}
    (h : chunkPartRead lookup chunks data pos = (.ok pt, q)) :
    ∃ i, lkFind lookup pt.parentGuid = some i ∧ pt.chunk = chunks[i]? := by
  unfold chunkPartRead at h
  dsimp only at h
  split at h
  · exact absurd (Prod.mk.injEq .. ▸ h).1 (by simp)
  split at h
  · exact absurd (Prod.mk.injEq .. ▸ h).1 (by simp)
  split at h
  · exact absurd (Prod.mk.injEq .. ▸ h).1 (by simp)
  next idx hfind =>
    split at h
    · exact absurd (Prod.mk.injEq .. ▸ h).1 (by simp)
    split at h
    · exact absurd (Prod.mk.injEq .. ▸ h).1 (by simp)
    have hpt := (Prod.mk.injEq .. ▸ h).1
    have hpt2 : pt = ⟨leVal (readBytesTol data pos 4).1,
        (readBytesTol data (readBytesTol data pos 4).2 16).1, _, _,
        chunks[idx]?⟩ := (Except.ok.inj hpt).symm
    subst hpt2
    exact ⟨idx, hfind, rfl⟩

/-- Every part kept by the per-file loop came from a successful
`ChunkPart::read`. -/
theorem readParts_mem {lookup : Lookup} {chunks : List Chunk} {data : Bytes} :
    ∀ {n pos : Nat} {pt : ChunkPart},
      pt ∈ (readParts lookup chunks data n pos).1 →
      ∃ p p2, chunkPartRead lookup chunks data p = (.ok pt, p2) := by
  intro n
  induction n with
  | zero =>
    intro pos pt hmem
    simp [readParts] at hmem
  | succ n ih =>
    intro pos pt hmem
    simp only [readParts] at hmem
    split at hmem
    · simp at hmem
    next c p hread =>
      rcases List.mem_cons.mp hmem with hc | hrest
      · exact ⟨pos, p, hc ▸ hread⟩
      · exact ih hrest

/-- The accumulated `file_chunk_size` is the sum of the kept part sizes. -/
theorem readParts_sum {lookup : Lookup} {chunks : List Chunk} {data : Bytes} :
    ∀ (n pos : Nat),
      (readParts lookup chunks data n pos).2.1 =
        sumSizes (readParts lookup chunks data n pos).1 := by
  intro n
  induction n with
  | zero => intro pos; rfl
  | succ n ih =>
    intro pos
    simp only [readParts]
    split
    · rfl
    next c p _ =>
      simp only [sumSizes, List.foldr_cons]
      have := ih p
      simp only [sumSizes] at this
      rw [this]

/-- Every per-file entry produced by the chunk-parts pass has its size
equal to the sum of its kept parts, each of which came from a successful
`ChunkPart::read`. -/
theorem readFileParts_entries {lookup : Lookup} {chunks : List Chunk}
    {data : Bytes} :
    ∀ {n pos : Nat} {prs : List (List ChunkPart × Nat)} {q : Nat},
      readFileParts lookup chunks data n pos = .ok (prs, q) →
      ∀ pr ∈ prs, pr.2 = sumSizes pr.1 ∧
        ∀ pt ∈ pr.1, ∃ p p2,
          chunkPartRead lookup chunks data p = (.ok pt, p2) := by
  intro n
  induction n with
  | zero =>
    intro pos prs q h pr hmem
    simp only [readFileParts] at h
    obtain ⟨h1, _⟩ := Prod.mk.injEq .. ▸ Except.ok.inj h
    rw [← h1] at hmem
    simp at hmem
  | succ n ih =>
    intro pos prs q h pr hmem
    simp only [readFileParts] at h
    split at h
    · exact absurd h (by simp)
    next cnt p1 _ =>
      split at h
      · -- cnt > 10000: skipped file
        split at h
        · exact absurd h (by simp)
        next rest q2 hrest =>
          obtain ⟨h1, _⟩ := Prod.mk.injEq .. ▸ Except.ok.inj h
          rw [← h1] at hmem
          rcases List.mem_cons.mp hmem with hc | hr
          · subst hc
            exact ⟨rfl, by intro pt hpt; simp at hpt⟩
          · exact ih hrest pr hr
      · -- parts actually read
        split at h
        · exact absurd h (by simp)
        next rest q2 hrest =>
          split at h
          · obtain ⟨h1, _⟩ := Prod.mk.injEq .. ▸ Except.ok.inj h
            rw [← h1] at hmem
            rcases List.mem_cons.mp hmem with hc | hr
            · subst hc
              exact ⟨rfl, by intro pt hpt; simp at hpt⟩
            · exact ih hrest pr hr
          · obtain ⟨h1, _⟩ := Prod.mk.injEq .. ▸ Except.ok.inj h
            rw [← h1] at hmem
            rcases List.mem_cons.mp hmem with hc | hr
            · subst hc
              refine ⟨readParts_sum .., ?_⟩
              intro pt hpt
              exact readParts_mem hpt
            · exact ih hrest pr hr

/-- Each decoded file's `chunk_parts` and `file_size` come from one entry
of the chunk-parts pass. -/
theorem mkFiles_mem :
    ∀ {nms sys shs : List Bytes} {fls : List Nat} {tgs : List (List Bytes)}
      {prs : List (List ChunkPart × Nat)} {f : FileManifest},
      f ∈ mkFiles nms sys shs fls tgs prs →
      ∃ pr ∈ prs, f.chunkParts = pr.1 ∧ f.fileSize = pr.2 := by
  intro nms
  induction nms with
  | nil =>
    intro sys shs fls tgs prs f hmem
    simp [mkFiles] at hmem
  | cons nm nms ih =>
    intro sys shs fls tgs prs f hmem
    match sys, shs, fls, tgs, prs with
    | sy :: sys, sh :: shs, fl :: fls, tg :: tgs, pr :: prs =>
      simp only [mkFiles] at hmem
      rcases List.mem_cons.mp hmem with hc | hr
      · subst hc
        exact ⟨pr, List.mem_cons_self .., rfl, rfl⟩
      · obtain ⟨pr2, hpr2, h1, h2⟩ := ih hr
        exact ⟨pr2, List.mem_cons_of_mem _ hpr2, h1, h2⟩
    | [], _, _, _, _ => simp [mkFiles] at hmem
    | _ :: _, [], _, _, _ => simp [mkFiles] at hmem
    | _ :: _, _ :: _, [], _, _ => simp [mkFiles] at hmem
    | _ :: _, _ :: _, _ :: _, [], _ => simp [mkFiles] at hmem
    | _ :: _, _ :: _, _ :: _, _ :: _, [] => simp [mkFiles] at hmem

/-- The MIME pass only changes `mime_type`. -/
theorem applyMimes_mem :
    ∀ {fs : List FileManifest} {ms : List Bytes} {f : FileManifest},
      f ∈ applyMimes fs ms →
      ∃ f0 ∈ fs, f.chunkParts = f0.chunkParts ∧ f.fileSize = f0.fileSize := by
  intro fs
  induction fs with
  | nil =>
    intro ms f hmem
    cases ms <;> simp [applyMimes] at hmem
  | cons f0 fs ih =>
    intro ms f hmem
    cases ms with
    | nil =>
      simp only [applyMimes] at hmem
      exact ⟨f, hmem, rfl, rfl⟩
    | cons m ms =>
      simp only [applyMimes] at hmem
      rcases List.mem_cons.mp hmem with hc | hr
      · subst hc
        exact ⟨f0, List.mem_cons_self .., rfl, rfl⟩
      · obtain ⟨f1, hf1, h1, h2⟩ := ih hr
        exact ⟨f1, List.mem_cons_of_mem _ hf1, h1, h2⟩

/-- Every file of a successfully decoded file directory has
`file_size = Σ part.size` over its kept parts, and each kept part came
from a successful `ChunkPart::read` against the given directory. -/
theorem fileListInner_fileData {lookup : Lookup} {chunks : List Chunk}
    {ds dv count : Nat} {inner : Bytes} {fl : FileManifestList}
    (h : fileListInner lookup chunks ds dv count inner = .ok fl) :
    ∀ f ∈ fl.fileManifestList,
      f.fileSize = sumSizes f.chunkParts ∧
      ∀ pt ∈ f.chunkParts, ∃ p p2,
        chunkPartRead lookup chunks inner p = (.ok pt, p2) := by
  unfold fileListInner at h
  split at h
  · exact absurd h (by simp)
  next names q1 _ =>
  split at h
  · exact absurd h (by simp)
  next symlinks q2 _ =>
  split at h
  · exact absurd h (by simp)
  next shas q3 _ =>
  split at h
  · exact absurd h (by simp)
  next flags q4 _ =>
  split at h
  · exact absurd h (by simp)
  next tags q5 _ =>
  split at h
  · exact absurd h (by simp)
  next parts q6 hparts =>
    have hfl : fl.fileManifestList =
        (if 2 ≤ dv then
          let s := v2SkipArrays inner count q6
          if s.1 then
            applyMimes (mkFiles names symlinks shas flags tags parts)
              (v2Mimes inner count s.2)
          else mkFiles names symlinks shas flags tags parts
        else mkFiles names symlinks shas flags tags parts) := by
      have := (Except.ok.inj h).symm
      rw [this]
    intro f hf
    rw [hfl] at hf
    have hmk : ∃ f0 ∈ mkFiles names symlinks shas flags tags parts,
        f.chunkParts = f0.chunkParts ∧ f.fileSize = f0.fileSize := by
      split at hf
      · dsimp only at hf
        split at hf
        · exact applyMimes_mem hf
        · exact ⟨f, hf, rfl, rfl⟩
      · exact ⟨f, hf, rfl, rfl⟩
    obtain ⟨f0, hf0, hcp, hfs⟩ := hmk
    obtain ⟨pr, hpr, hcp0, hfs0⟩ := mkFiles_mem hf0
    obtain ⟨hsum, hsrc⟩ := readFileParts_entries hparts pr hpr
    constructor
    · rw [hfs, hfs0, hsum, ← hcp0, ← hcp]
    · intro pt hpt
      exact hsrc pt (by rw [← hcp0, ← hcp]; exact hpt)

/-- Lift `fileListInner_fileData` through `FileManifestList::read`
(the window handed to the inner decoder is the tolerant bulk read). -/
theorem fileListRead_fileData {data : Bytes} {pos : Nat}
    {cl : ChunkDataList} {fl : FileManifestList} {q : Nat}
    (h : fileListRead data pos cl = .ok (fl, q)) :
    ∀ f ∈ fl.fileManifestList,
      f.fileSize = sumSizes f.chunkParts ∧
      ∀ pt ∈ f.chunkParts, ∃ inner p p2,
        chunkPartRead cl.chunkLookup cl.elements inner p = (.ok pt, p2) := by
  unfold fileListRead at h
  split at h
  · exact absurd h (by simp)
  next ds p1 _ =>
    split at h
    · exact absurd h (by simp)
    split at h
    · exact absurd h (by simp)
    next dv p2 _ =>
      split at h
      · exact absurd h (by simp)
      split at h
      · exact absurd h (by simp)
      next count p3 _ =>
        dsimp only at h
        split at h
        · exact absurd h (by simp)
        split at h
        · exact absurd h (by simp)
        next fl2 hinner =>
          obtain ⟨h1, _⟩ := Prod.mk.injEq .. ▸ Except.ok.inj h
          rw [← h1]
          intro f hf
          obtain ⟨hsum, hsrc⟩ := fileListInner_fileData hinner f hf
          refine ⟨hsum, ?_⟩
          intro pt hpt
          obtain ⟨p, p2, hread⟩ := hsrc pt hpt
          exact ⟨_, p, p2, hread⟩

/-! ## JSON-path lemmas -/

/-- JSON-origin chunk parts never carry the denormalized parent chunk:
`to_manifest` constructs every part with `chunk: None`. -/
theorem convParts_chunk_none {up : Bytes → Option Bytes}
    {ps : List JsonFileChunkPart} {parts : List ChunkPart}
    (h : convParts up ps = .ok parts) : ∀ pt ∈ parts, pt.chunk = none := by
  induction ps generalizing parts with
  | nil =>
    simp only [convParts] at h
    rw [← Except.ok.inj h]
    intro pt hpt
    simp at hpt
  | cons p ps ih =>
    simp only [convParts] at h
    split at h
    · exact absurd h (by simp)
    split at h
    · exact absurd h (by simp)
    split at h
    · exact absurd h (by simp)
    split at h
    · exact absurd h (by simp)
    next rest hrest =>
      rw [← Except.ok.inj h]
      intro pt hpt
      rcases List.mem_cons.mp hpt with hc | hr
      · rw [hc]
      · exact ih hrest pt hr

/-- A successful part conversion certifies every source part: the GUID
parses, and the offset and size strings parse as `u64` decimals. -/
theorem convParts_src {up : Bytes → Option Bytes}
    {ps : List JsonFileChunkPart} {parts : List ChunkPart}
    (h : convParts up ps = .ok parts) :
    ∀ p ∈ ps, up p.guid ≠ none ∧ parseHexString p.offset ≠ none ∧
      parseHexString p.size ≠ none := by
  induction ps generalizing parts with
  | nil =>
    intro p hp
    simp at hp
  | cons p0 ps ih =>
    simp only [convParts] at h
    split at h
    · exact absurd h (by simp)
    next g hg =>
    split at h
    · exact absurd h (by simp)
    next off hoff =>
    split at h
    · exact absurd h (by simp)
    next sz hsz =>
    split at h
    · exact absurd h (by simp)
    next rest hrest =>
      intro p hp
      rcases List.mem_cons.mp hp with hc | hr
      · subst hc
        exact ⟨by rw [hg]; simp, by rw [hoff]; simp, by rw [hsz]; simp⟩
      · exact ih hrest p hr

theorem parseFileHash_some_length {s out : Bytes}
    (h : parseFileHash s = some out) : s.length = 60 := by
  unfold parseFileHash at h
  split at h
  next hl => exact hl
  next => exact absurd h (by simp)

/-- A successful file conversion certifies every source file (hash
length 60, the hash groups parse) and all its parts. -/
theorem convFiles_src {up : Bytes → Option Bytes}
    {fs : List JsonFileManifest} {files : List FileManifest}
    (h : convFiles up fs = .ok files) :
    ∀ f ∈ fs, parseFileHash f.fileHash ≠ none ∧ f.fileHash.length = 60 ∧
      ∀ p ∈ f.fileChunkParts, up p.guid ≠ none ∧
        parseHexString p.offset ≠ none ∧ parseHexString p.size ≠ none := by
  induction fs generalizing files with
  | nil =>
    intro f hf
    simp at hf
  | cons f0 fs ih =>
    simp only [convFiles] at h
    split at h
    · exact absurd h (by simp)
    next parts hparts =>
    split at h
    · exact absurd h (by simp)
    next hash hhash =>
    split at h
    · exact absurd h (by simp)
    next rest hrest =>
      intro f hf
      rcases List.mem_cons.mp hf with hc | hr
      · subst hc
        exact ⟨by rw [hhash]; simp, parseFileHash_some_length hhash,
          convParts_src hparts⟩
      · exact ih hrest f hr

/-- All parts of all JSON-converted files have `chunk = none`. -/
theorem convFiles_chunk_none {up : Bytes → Option Bytes}
    {fs : List JsonFileManifest} {files : List FileManifest}
    (h : convFiles up fs = .ok files) :
    ∀ f ∈ files, ∀ pt ∈ f.chunkParts, pt.chunk = none := by
  induction fs generalizing files with
  | nil =>
    simp only [convFiles] at h
    rw [← Except.ok.inj h]
    intro f hf
    simp at hf
  | cons f0 fs ih =>
    simp only [convFiles] at h
    split at h
    · exact absurd h (by simp)
    next parts hparts =>
    split at h
    · exact absurd h (by simp)
    split at h
    · exact absurd h (by simp)
    next rest hrest =>
      rw [← Except.ok.inj h]
      intro f hf
      rcases List.mem_cons.mp hf with hc | hr
      · subst hc
        exact convParts_chunk_none hparts
      · exact ih hrest f hr

/-- Inversion of a successful `to_manifest`. -/
theorem toManifest_ok_inv {ext : Ext} {j : JsonManifest} {m : Manifest}
    (h : toManifest ext j = .ok m) :
    ∃ guidSet files,
      collectGuidsFiles ext.uuidParse j.fileManifestList [] = .ok guidSet ∧
      convFiles ext.uuidParse j.fileManifestList = .ok files ∧
      m.meta.isSome = true ∧
      m.chunkList = some ⟨0, 0, guidSet.length,
        guidSet.map (mkJsonChunk ext), buildLookup guidSet⟩ ∧
      m.fileList = some ⟨0, 0, files.length, files⟩ := by
  unfold toManifest at h
  split at h
  · exact absurd h (by simp)
  split at h
  · exact absurd h (by simp)
  split at h
  · exact absurd h (by simp)
  next guidSet hguids =>
    split at h
    · exact absurd h (by simp)
    next files hfiles =>
      refine ⟨guidSet, files, hguids, hfiles, ?_, ?_, ?_⟩ <;>
        (rw [← Except.ok.inj h]; try rfl)

/-- The synthesized JSON chunk directory has a consistent lookup. -/
theorem jsonChunkList_wf (ext : Ext) (gs : List Bytes) :
    ∀ g i, lkFind (buildLookup gs) g = some i →
      ∃ c, (gs.map (mkJsonChunk ext))[i]? = some c ∧ c.guid = g := by
  intro g i hfind
  have hg : gs[i]? = some g := buildLookup_inv gs g i hfind
  refine ⟨mkJsonChunk ext g, ?_, rfl⟩
  rw [List.getElem?_map, hg]
  rfl

/-! ## Pipeline inversion lemmas -/

theorem sectionsRead_ok_inv {payload : Bytes} {mm : Option ManifestMeta}
    {cl : ChunkDataList} {fl : FileManifestList}
    (h : sectionsRead payload = .ok (mm, cl, fl)) :
    ∃ p2 q, chunkListRead payload (afterMeta payload 0).2 = .ok (cl, p2) ∧
      fileListRead payload p2 cl = .ok (fl, q) ∧
      mm = (afterMeta payload 0).1 := by
  unfold sectionsRead at h
  dsimp only at h
  split at h
  · exact absurd h (by simp)
  next cl2 p2 hcl =>
    split at h
    · exact absurd h (by simp)
    next fl2 q hfl =>
      have := Except.ok.inj h
      simp only [Prod.mk.injEq] at this
      obtain ⟨e1, e2, e3⟩ := this
      subst e1 e2 e3
      exact ⟨p2, q, hcl, hfl, rfl⟩

theorem binaryDecode_ok_inv {infl : Bytes → Option Bytes} {buf : Bytes}
    {h0 : ManifestHeader} {payload : Bytes} {mm : Option ManifestMeta}
    {cl : ChunkDataList} {fl : FileManifestList}
    (h : binaryDecode infl buf = .ok (h0, payload, mm, cl, fl)) :
    headerRead buf = .ok h0 ∧
    ∃ pc, framePayload h0 buf = .ok pc ∧ h0.isEncrypted = false ∧
      decompressStage infl h0 pc = .ok payload ∧
      sectionsRead payload = .ok (mm, cl, fl) := by
  unfold binaryDecode at h
  split at h
  · exact absurd h (by simp)
  next h1 hhr =>
    split at h
    · exact absurd h (by simp)
    · exact absurd h (by simp)
    next pc hframe =>
      split at h
      · exact absurd h (by simp)
      next henc =>
        split at h
        · exact absurd h (by simp)
        · exact absurd h (by simp)
        next payload2 hdec =>
          split at h
          · exact absurd h (by simp)
          next mm2 cl2 fl2 hsec =>
            have := PanicOr.ok.inj h
            simp only [Prod.mk.injEq] at this
            obtain ⟨e1, e2, e3, e4, e5⟩ := this
            subst e1 e2 e3 e4 e5
            exact ⟨hhr, pc, hframe, by simpa using henc, hdec, hsec⟩

theorem process_ok_binary_inv {ext : Ext} {buf : Bytes} {m : Manifest}
    {w : Bool} (h : processManifestData ext buf = .ok m w)
    (hjson : isJsonManifest ext.jsonDetect buf = false) :
    ∃ h0 payload mm cl fl,
      binaryDecode ext.inflate buf = .ok (h0, payload, mm, cl, fl) ∧
      m = ⟨h0, mm, some cl, some fl⟩ ∧
      w = (ext.sha1 payload != h0.sha1Hash) := by
  unfold processManifestData at h
  rw [if_neg (by simp [hjson])] at h
  split at h
  · exact absurd h (by simp)
  · exact absurd h (by simp)
  next h0 payload mm cl fl hbd =>
    have := Outcome.ok.inj h
    obtain ⟨e1, e2⟩ := this
    exact ⟨h0, payload, mm, cl, fl, hbd, e1.symm, e2.symm⟩

theorem process_ok_json_inv {ext : Ext} {buf : Bytes} {m : Manifest}
    {w : Bool} (h : processManifestData ext buf = .ok m w)
    (hjson : isJsonManifest ext.jsonDetect buf = true) :
    ∃ j, ext.jsonParse buf = some j ∧ toManifest ext j = .ok m ∧
      w = false := by
  unfold processManifestData at h
  rw [if_pos hjson] at h
  split at h
  · exact absurd h (by simp)
  next j hj =>
    split at h
    · exact absurd h (by simp)
    next m2 htm =>
      have := Outcome.ok.inj h
      obtain ⟨e1, e2⟩ := this
      exact ⟨j, hj, e1 ▸ htm, e2.symm⟩

/-! ## C4: binary file sizes are part-size sums -/

/-- **C4.** Every file of a manifest decoded on the binary path has
`file_size` equal to the sum of its chunk parts' `size` fields; a file
whose part list ended up empty has size 0 (`sumSizes [] = 0`). -/
theorem fileSize_eq_sumParts (ext : Ext) (buf : Bytes) (m : Manifest)
    (w : Bool) (h : processManifestData ext buf = .ok m w)
    (hjson : isJsonManifest ext.jsonDetect buf = false) :
    ∀ fl, m.fileList = some fl →
      ∀ f ∈ fl.fileManifestList, f.fileSize = sumSizes f.chunkParts := by
  obtain ⟨h0, payload, mm, cl, fl0, hbd, hm, _⟩ := process_ok_binary_inv h hjson
  obtain ⟨_, pc, _, _, _, hsec⟩ := binaryDecode_ok_inv hbd
  obtain ⟨p2, q, hcl, hfl, _⟩ := sectionsRead_ok_inv hsec
  intro fl hfl2 f hf
  have : fl = fl0 := by
    rw [hm] at hfl2
    exact (Option.some.inj hfl2).symm
  subst this
  exact (fileListRead_fileData hfl f hf).1

/-! ## C5: parent GUIDs of kept parts resolve in the lookup -/

/-- **C5.** (a) Every chunk part kept in a binary-decoded manifest has a
`parent_guid` present in the chunk directory's lookup.  (b) A part whose
16 GUID bytes read fully but are absent from the lookup makes
`ChunkPart::read` fail with an invalid-structure error at `pos + 20`, and
the per-file loop then stops without an error, keeping the parts decoded
so far (shown at the loop head: the remaining reads are abandoned and the
decode continues). -/
theorem partParent_in_lookup :
    (∀ (ext : Ext) (buf : Bytes) (m : Manifest) (w : Bool),
      processManifestData ext buf = .ok m w →
      isJsonManifest ext.jsonDetect buf = false →
      ∀ cl fl, m.chunkList = some cl → m.fileList = some fl →
        ∀ f ∈ fl.fileManifestList, ∀ pt ∈ f.chunkParts,
          lkFind cl.chunkLookup pt.parentGuid ≠ none) ∧
    (∀ (lookup : Lookup) (chunks : List Chunk) (data : Bytes) (p n : Nat),
      (bytesAt data p 4).length = 4 →
      (bytesAt data (p + 4) 16).length = 16 →
      lkFind lookup (bytesAt data (p + 4) 16) = none →
      chunkPartRead lookup chunks data p = (.error .invalidData, p + 20) ∧
      readParts lookup chunks data (n + 1) p = ([], 0, p + 20)) := by
  constructor
  · intro ext buf m w h hjson cl fl hcl hfl f hf pt hpt
    obtain ⟨h0, payload, mm, cl0, fl0, hbd, hm, _⟩ :=
      process_ok_binary_inv h hjson
    obtain ⟨_, pc, _, _, _, hsec⟩ := binaryDecode_ok_inv hbd
    obtain ⟨p2, q, hclr, hflr, _⟩ := sectionsRead_ok_inv hsec
    have hcl0 : cl = cl0 := by
      rw [hm] at hcl
      exact (Option.some.inj hcl).symm
    have hfl0 : fl = fl0 := by
      rw [hm] at hfl
      exact (Option.some.inj hfl).symm
    subst hcl0 hfl0
    obtain ⟨inner, p, pp2, hread⟩ := (fileListRead_fileData hflr f hf).2 pt hpt
    obtain ⟨i, hfind, _⟩ := chunkPartRead_ok hread
    rw [hfind]
    simp
  · intro lookup chunks data p n h4 h16 hnone
    have hcp : chunkPartRead lookup chunks data p =
        (.error .invalidData, p + 20) := by
      simp only [chunkPartRead, readBytesTol]
      rw [show (data.drop p).take 4 = bytesAt data p 4 from rfl, h4]
      rw [if_neg (by omega)]
      rw [show (data.drop (p + 4)).take 16 = bytesAt data (p + 4) 16 from rfl,
        h16]
      rw [if_neg (by omega)]
      rw [hnone]
    refine ⟨hcp, ?_⟩
    simp only [readParts, hcp]

/-! ## JSON error kinds -/

theorem collectGuidsParts_err {up : Bytes → Option Bytes}
    {ps : List JsonFileChunkPart} {acc : List Bytes} {e : MErr}
    (h : collectGuidsParts up ps acc = .error e) : e = .invalidData := by
  induction ps generalizing acc with
  | nil => simp [collectGuidsParts] at h
  | cons p ps ih =>
    simp only [collectGuidsParts] at h
    split at h
    · exact (Except.error.inj h).symm
    · exact ih h

theorem collectGuidsFiles_err {up : Bytes → Option Bytes}
    {fs : List JsonFileManifest} {acc : List Bytes} {e : MErr}
    (h : collectGuidsFiles up fs acc = .error e) : e = .invalidData := by
  induction fs generalizing acc with
  | nil => simp [collectGuidsFiles] at h
  | cons f fs ih =>
    simp only [collectGuidsFiles] at h
    split at h
    next e2 herr =>
      have := Except.error.inj h
      subst this
      exact collectGuidsParts_err herr
    · exact ih h

theorem convParts_err {up : Bytes → Option Bytes}
    {ps : List JsonFileChunkPart} {e : MErr}
    (h : convParts up ps = .error e) : e = .invalidData := by
  induction ps with
  | nil => simp [convParts] at h
  | cons p ps ih =>
    simp only [convParts] at h
    split at h
    · exact (Except.error.inj h).symm
    split at h
    · exact (Except.error.inj h).symm
    split at h
    · exact (Except.error.inj h).symm
    split at h
    next e2 herr =>
      have := Except.error.inj h
      subst this
      exact ih herr
    · exact absurd h (by simp)

theorem convFiles_err {up : Bytes → Option Bytes}
    {fs : List JsonFileManifest} {e : MErr}
    (h : convFiles up fs = .error e) : e = .invalidData := by
  induction fs with
  | nil => simp [convFiles] at h
  | cons f fs ih =>
    simp only [convFiles] at h
    split at h
    next e2 herr =>
      have := Except.error.inj h
      subst this
      exact convParts_err herr
    split at h
    · exact (Except.error.inj h).symm
    split at h
    next e2 herr =>
      have := Except.error.inj h
      subst this
      exact ih herr
    · exact absurd h (by simp)

theorem toManifest_err {ext : Ext} {j : JsonManifest} {e : MErr}
    (h : toManifest ext j = .error e) : e = .invalidData := by
  unfold toManifest at h
  split at h
  · exact (Except.error.inj h).symm
  split at h
  · exact (Except.error.inj h).symm
  split at h
  next e2 herr =>
    have := Except.error.inj h
    subst this
    exact collectGuidsFiles_err herr
  split at h
  next e2 herr =>
    have := Except.error.inj h
    subst this
    exact convFiles_err herr
  · exact absurd h (by simp)

/-! ## C8: JSON field validation is a hard failure -/

/-- **C8.** On the JSON path there is no tolerant fallback:
(a) a successful `to_manifest` certifies that every file's hash string
has length exactly 60 and that every chunk part's GUID parses as a UUID
and its Offset and Size strings parse as non-negative decimal (`u64`)
integers — contrapositively, any such malformed field makes the whole
decode fail, and by the `Except` result type no partial `Manifest` is
returned alongside; (b) every `to_manifest` failure is the
invalid-structure error. -/
theorem jsonValidation_hard_failure :
    (∀ (ext : Ext) (j : JsonManifest) (m : Manifest),
      toManifest ext j = .ok m →
      ∀ f ∈ j.fileManifestList, f.fileHash.length = 60 ∧
        ∀ p ∈ f.fileChunkParts, ext.uuidParse p.guid ≠ none ∧
          parseHexString p.offset ≠ none ∧ parseHexString p.size ≠ none) ∧
    (∀ (ext : Ext) (j : JsonManifest) (e : MErr),
      toManifest ext j = .error e → e = .invalidData) := by
  constructor
  · intro ext j m h f hf
    obtain ⟨gs, files, _, hconv, _⟩ := toManifest_ok_inv h
    obtain ⟨_, hlen, hparts⟩ := convFiles_src hconv f hf
    exact ⟨hlen, hparts⟩
  · intro ext j e h
    exact toManifest_err h

/-! ## C9 (amended): the denormalized parent chunk -/

/-- **C9 (amended).** (a) On the binary path, every kept chunk part
carries `chunk = Some c` where `c` is the chunk-directory element at the
part's lookup index and `c.guid = parent_guid` — the denormalized copy of
the resolved parent. (b) On the JSON path, `to_manifest` constructs every
part with `chunk = None`; no denormalized copy is attached there. -/
theorem partChunk_denormalized :
    (∀ (ext : Ext) (buf : Bytes) (m : Manifest) (w : Bool),
      processManifestData ext buf = .ok m w →
      isJsonManifest ext.jsonDetect buf = false →
      ∀ cl fl, m.chunkList = some cl → m.fileList = some fl →
        ∀ f ∈ fl.fileManifestList, ∀ pt ∈ f.chunkParts,
          pt.chunk = (lkFind cl.chunkLookup pt.parentGuid).bind
            (fun i => cl.elements[i]?) ∧
          ∃ c, pt.chunk = some c ∧ c.guid = pt.parentGuid) ∧
    (∀ (ext : Ext) (j : JsonManifest) (m : Manifest),
      toManifest ext j = .ok m →
      ∀ fl, m.fileList = some fl →
        ∀ f ∈ fl.fileManifestList, ∀ pt ∈ f.chunkParts, pt.chunk = none) := by
  constructor
  · intro ext buf m w h hjson cl fl hcl hfl f hf pt hpt
    obtain ⟨h0, payload, mm, cl0, fl0, hbd, hm, _⟩ :=
      process_ok_binary_inv h hjson
    obtain ⟨_, pc, _, _, _, hsec⟩ := binaryDecode_ok_inv hbd
    obtain ⟨p2, q, hclr, hflr, _⟩ := sectionsRead_ok_inv hsec
    have hcl0 : cl = cl0 := by
      rw [hm] at hcl
      exact (Option.some.inj hcl).symm
    have hfl0 : fl = fl0 := by
      rw [hm] at hfl
      exact (Option.some.inj hfl).symm
    subst hcl0 hfl0
    obtain ⟨inner, p, pp2, hread⟩ := (fileListRead_fileData hflr f hf).2 pt hpt
    obtain ⟨i, hfind, hchunk⟩ := chunkPartRead_ok hread
    constructor
    · rw [hfind, hchunk]
      rfl
    · obtain ⟨c, hc, hg⟩ := chunkListRead_wf hclr pt.parentGuid i hfind
      exact ⟨c, by rw [hchunk, hc], hg⟩
  · intro ext j m h fl hfl f hf pt hpt
    obtain ⟨gs, files, _, hconv, _, _, hfl2⟩ := toManifest_ok_inv h
    rw [hfl2] at hfl
    have : fl = ⟨0, 0, files.length, files⟩ := (Option.some.inj hfl).symm
    subst this
    exact convFiles_chunk_none hconv f hf pt hpt

/-! ## C10: lookup/element consistency and section presence -/

/-- **C10.** Every successfully returned `Manifest` (binary or JSON path)
has `chunk_list` and `file_list` present — only `meta` can be absent —
and the chunk directory's lookup is consistent with its element list:
every key resolves to an in-range index whose element carries that GUID. -/
theorem manifest_invariants (ext : Ext) (buf : Bytes) (m : Manifest)
    (w : Bool) (h : processManifestData ext buf = .ok m w) :
    m.chunkList.isSome = true ∧ m.fileList.isSome = true ∧
    ∀ cl, m.chunkList = some cl →
      ∀ g i, lkFind cl.chunkLookup g = some i →
        ∃ c, cl.elements[i]? = some c ∧ c.guid = g := by
  by_cases hjson : isJsonManifest ext.jsonDetect buf = true
  · obtain ⟨j, _, htm, _⟩ := process_ok_json_inv h hjson
    obtain ⟨gs, files, _, _, _, hcl, hfl⟩ := toManifest_ok_inv htm
    refine ⟨by rw [hcl]; rfl, by rw [hfl]; rfl, ?_⟩
    intro cl hcl2 g i hfind
    rw [hcl] at hcl2
    have : cl = ⟨0, 0, gs.length, gs.map (mkJsonChunk ext),
        buildLookup gs⟩ := (Option.some.inj hcl2).symm
    subst this
    exact jsonChunkList_wf ext gs g i hfind
  · have hjson2 : isJsonManifest ext.jsonDetect buf = false := by
      simpa using hjson
    obtain ⟨h0, payload, mm, cl0, fl0, hbd, hm, _⟩ :=
      process_ok_binary_inv h hjson2
    obtain ⟨_, pc, _, _, _, hsec⟩ := binaryDecode_ok_inv hbd
    obtain ⟨p2, q, hclr, hflr, _⟩ := sectionsRead_ok_inv hsec
    subst hm
    refine ⟨rfl, rfl, ?_⟩
    intro cl hcl2 g i hfind
    have : cl = cl0 := (Option.some.inj hcl2).symm
    subst this
    exact chunkListRead_wf hclr g i hfind

/-- Witness for C7: the concrete 41-byte header `bufHdr` with
`header_size = 41` and version bytes `[5,0,0,0]` decodes with
`version = 5`, matching the formula. -/
theorem headerVersion_spec_witness :
    headerRead bufHdr = .ok hdrVal ∧
      hdrVal.version =
        if hdrVal.headerSize ≤ 37 then 0
        else i32OfNat (leVal (bytesAt bufHdr 37 4)) :=
  ⟨by decide, headerVersion_spec bufHdr hdrVal (by decide)⟩

/-! ## C2: chunk-section shortfall -/

theorem mkChunks_length :
    ∀ (gs : List Bytes) (hs : List Nat) (ss : List Bytes)
      (grs ws fs : List Nat),
      hs.length = gs.length → ss.length = gs.length →
      grs.length = gs.length → ws.length = gs.length →
      fs.length = gs.length →
      (mkChunks gs hs ss grs ws fs).length = gs.length := by
  intro gs
  induction gs with
  | nil =>
    intro hs ss grs ws fs h1 h2 h3 h4 h5
    match hs, ss, grs, ws, fs with
    | [], [], [], [], [] => rfl
    | _ :: _, _, _, _, _ => simp at h1
    | [], _ :: _, _, _, _ => simp at h2
    | [], [], _ :: _, _, _ => simp at h3
    | [], [], [], _ :: _, _ => simp at h4
    | [], [], [], [], _ :: _ => simp at h5
  | cons a gs ih =>
    intro hs ss grs ws fs h1 h2 h3 h4 h5
    match hs, ss, grs, ws, fs with
    | b :: hs, c :: ss, d :: grs, e :: ws, f :: fs =>
      simp only [mkChunks, List.length_cons]
      rw [ih hs ss grs ws fs (by simpa using h1) (by simpa using h2)
        (by simpa using h3) (by simpa using h4) (by simpa using h5)]
    | [], _, _, _, _ => simp at h1
    | _ :: _, [], _, _, _ => simp at h2
    | _ :: _, _ :: _, [], _, _ => simp at h3
    | _ :: _, _ :: _, _ :: _, [], _ => simp at h4
    | _ :: _, _ :: _, _ :: _, _ :: _, [] => simp at h5

/-- **C2 (amended).** A chunk-directory section that declares more bytes
than are available is read over whatever bytes are there (the shortfall
itself raises no error — it is only logged), and the decode keeps all
`count` rows and succeeds provided the available bytes still cover the
five column passes (`5 + 57·count` bytes: 1 version byte, 4 count bytes,
and 16+8+20+1+4+8 bytes per row).  [A shortfall that cuts into the rows
themselves does abort the decode — see the counterexample.] -/
theorem chunkShortfall_tolerated (data : Bytes) (pos L count : Nat)
    (hsz : leVal (bytesAt data pos 4) = L)
    (hpos4 : pos + 4 ≤ data.length)
    (h0 : 0 < L) (hGB : L ≤ GB)
    (hcount : leVal (bytesAt (bytesAt data (pos + 4) (L - 4)) 1 4) = count)
    (hcmax : count ≤ 1000000)
    (hrows : 5 + 57 * count ≤ (bytesAt data (pos + 4) (L - 4)).length) :
    exOk (chunkListRead data pos) = true ∧
    clResCount (chunkListRead data pos) = some count ∧
    clResElems (chunkListRead data pos) = some count := by
  have e8 : readU8 (bytesAt data (pos + 4) (L - 4)) 0 =
      .ok (leVal (bytesAt (bytesAt data (pos + 4) (L - 4)) 0 1), 1) := by
    have h1 : (0 : Nat) + 1 ≤ (bytesAt data (pos + 4) (L - 4)).length := by
      omega
    simpa [readU8] using readLE_full h1
  have e32 : readU32 (bytesAt data (pos + 4) (L - 4)) 1 =
      .ok (count, 5) := by
    have h1 : (1 : Nat) + 4 ≤ (bytesAt data (pos + 4) (L - 4)).length := by
      omega
    have := readLE_full h1
    rw [hcount] at this
    simpa [readU32] using this
  have hg : ∀ p0, p0 + 16 ≤ (bytesAt data (pos + 4) (L - 4)).length →
      ∃ v, readGuid16 (bytesAt data (pos + 4) (L - 4)) p0 =
        .ok (v, p0 + 16) :=
    fun p0 hp => ⟨_, readGuid16_full hp⟩
  have h64 : ∀ p0, p0 + 8 ≤ (bytesAt data (pos + 4) (L - 4)).length →
      ∃ v, readU64 (bytesAt data (pos + 4) (L - 4)) p0 = .ok (v, p0 + 8) :=
    fun p0 hp => ⟨_, by rw [readU64]; exact readLE_full hp⟩
  have hsha : ∀ p0, p0 + 20 ≤ (bytesAt data (pos + 4) (L - 4)).length →
      ∃ v, readSha20 (bytesAt data (pos + 4) (L - 4)) p0 =
        .ok (v, p0 + 20) :=
    fun p0 hp => ⟨_, readSha20_full hp⟩
  have h8 : ∀ p0, p0 + 1 ≤ (bytesAt data (pos + 4) (L - 4)).length →
      ∃ v, readU8 (bytesAt data (pos + 4) (L - 4)) p0 = .ok (v, p0 + 1) :=
    fun p0 hp => ⟨_, by rw [readU8]; exact readLE_full hp⟩
  have h32 : ∀ p0, p0 + 4 ≤ (bytesAt data (pos + 4) (L - 4)).length →
      ∃ v, readU32 (bytesAt data (pos + 4) (L - 4)) p0 = .ok (v, p0 + 4) :=
    fun p0 hp => ⟨_, by rw [readU32]; exact readLE_full hp⟩
  obtain ⟨guids, hguids, hglen⟩ := readN_fixed hg count 5 (by omega)
  obtain ⟨hashes, hhashes, hhlen⟩ :=
    readN_fixed h64 count (5 + 16 * count) (by omega)
  obtain ⟨shas, hshas, hslen⟩ :=
    readN_fixed hsha count (5 + 16 * count + 8 * count) (by omega)
  obtain ⟨groups, hgroups, hgrlen⟩ :=
    readN_fixed h8 count (5 + 16 * count + 8 * count + 20 * count)
      (by omega)
  obtain ⟨windows, hwindows, hwlen⟩ :=
    readN_fixed h32 count
      (5 + 16 * count + 8 * count + 20 * count + 1 * count) (by omega)
  obtain ⟨fsizes, hfsizes, hflen⟩ :=
    readN_fixed h64 count
      (5 + 16 * count + 8 * count + 20 * count + 1 * count + 4 * count)
      (by omega)
  have hinner : chunkListInner L (bytesAt data (pos + 4) (L - 4)) =
      .ok ⟨L, leVal (bytesAt (bytesAt data (pos + 4) (L - 4)) 0 1), count,
        mkChunks guids hashes shas groups windows fsizes,
        buildLookup guids⟩ := by
    unfold chunkListInner
    simp only [e8, e32]
    rw [if_neg (by omega)]
    simp only [hguids, hhashes, hshas, hgroups, hwindows, hfsizes]
  have hread : chunkListRead data pos =
      .ok (⟨L, leVal (bytesAt (bytesAt data (pos + 4) (L - 4)) 0 1), count,
        mkChunks guids hashes shas groups windows fsizes,
        buildLookup guids⟩,
        (readBytesTol data (pos + 4) (L - 4)).2) := by
    unfold chunkListRead
    have e0 : readU32 data pos = .ok (L, pos + 4) := by
      have := readLE_full hpos4
      rw [hsz] at this
      simpa [readU32] using this
    simp only [e0]
    rw [if_neg (by omega)]
    rw [show (readBytesTol data (pos + 4) (L - 4)).1 =
      bytesAt data (pos + 4) (L - 4) from rfl]
    simp only [hinner]
  rw [hread]
  refine ⟨rfl, rfl, ?_⟩
  simp only [clResElems, Option.some.injEq]
  rw [mkChunks_length guids hashes shas groups windows fsizes
    (by omega) (by omega) (by omega) (by omega) (by omega)]
  omega

/-- Counterexample for C2 as stated: `bufC2`'s chunk section declares 30
bytes but only 25 exist (21 after the size field); the first of its two
GUID rows parses, the second is cut by the shortfall, and the overall
decode raises an invalid-structure error instead of keeping the parsed
row. -/
theorem chunkShortfall_counterexample :
    processManifestData extC bufC2 = .err .invalidData ∧
    leVal (bytesAt payloadC2 4 4) = 30 ∧
    payloadC2.length = 29 ∧
    exOk (readN readGuid16 1 (bytesAt payloadC2 8 26) 5) = true := by
  refine ⟨?_, ?_, ?_, ?_⟩ <;> decide

/-- Witness for the amended C2: `dataC2W` declares a 100-byte section but
provides only 66 bytes (62 in the window, against 96 declared); its one
row's columns all fit, and the decode succeeds with that row kept. -/
theorem chunkShortfall_tolerated_witness :
    exOk (chunkListRead dataC2W 0) = true ∧
    clResCount (chunkListRead dataC2W 0) = some 1 ∧
    clResElems (chunkListRead dataC2W 0) = some 1 :=
  chunkShortfall_tolerated dataC2W 0 100 1 (by decide) (by decide)
    (by decide) (by decide) (by decide) (by decide) (by decide)

/-! ## C3: metadata failure and the next section's start -/

/-- `read_meta` characterised when the declared section is valid and
fully available: the outer cursor ends exactly at `pos + L` whether the
field decoding succeeds or fails, because the window bytes were bulk-read
before field decoding began. -/
theorem metaRead_eq {data : Bytes} {pos L : Nat}
    (hsz : leVal (bytesAt data pos 4) = L) (h4 : 4 ≤ L) (hGB : L ≤ GB)
    (havail : pos + L ≤ data.length) :
    metaRead data pos =
      (metaInner L (bytesAt data (pos + 4) (L - 4)), pos + L) := by
  have h1 : (bytesAt data pos 4).length = 4 :=
    bytesAt_length_of_le (by omega)
  have h2 : (bytesAt data (pos + 4) (L - 4)).length = L - 4 :=
    bytesAt_length_of_le (by omega)
  unfold metaRead
  simp only [readBytesTol]
  rw [show (data.drop pos).take 4 = bytesAt data pos 4 from rfl, h1, hsz]
  rw [if_neg (by omega)]
  rw [if_neg (by omega)]
  rw [show (data.drop (pos + 4)).take (L - 4) =
    bytesAt data (pos + 4) (L - 4) from rfl, h2]
  have h3 : pos + 4 + (L - 4) = pos + L := by omega
  rw [h3]
  cases metaInner L (bytesAt data (pos + 4) (L - 4)) <;> rfl

/-- **C3 (amended).** When the metadata section fails to decode, the
overall decode continues with `meta = None`, and the next section starts
at the header-declared boundary `section start + declared length`
*provided* the declared length itself passed validation (it is at least
4 and at most 1 GiB) and the declared bytes are available; the boundary
is then reached not by a seek but because the failed read had already
bulk-consumed the declared window.  [When the declared length itself is
invalid or short, the next section starts wherever the failed read
stopped — see the counterexample.] -/
theorem metaFail_declared_boundary (data : Bytes) (pos L : Nat) (e : MErr)
    (hsz : leVal (bytesAt data pos 4) = L) (h4 : 4 ≤ L) (hGB : L ≤ GB)
    (havail : pos + L ≤ data.length)
    (hfail : (metaRead data pos).1 = .error e) :
    afterMeta data pos = (none, pos + L) := by
  have heq := metaRead_eq hsz h4 hGB havail
  unfold afterMeta
  rw [heq]
  rw [heq] at hfail
  simp only at hfail
  rw [hfail]

/-- Counterexample for C3 as stated: `bufC3`'s metadata section declares
length 0, so the metadata read fails at once and the decode continues
with `meta = None` — but the chunk directory is then decoded from offset
4 (after the consumed size field), not from the header-declared boundary
`0 + 0 = 0`: decoding from that boundary would fail with an
invalid-structure error, while the actual decode returns a manifest with
a chunk list. -/
theorem metaBoundary_counterexample :
    outMeta (processManifestData extC bufC3) = some none ∧
    outChunkIsSome (processManifestData extC bufC3) = true ∧
    leVal (bytesAt payloadC3 0 4) = 0 ∧
    chunkListRead payloadC3 0 = .error .invalidData := by
  refine ⟨?_, ?_, ?_, ?_⟩ <;> decide

/-- Witness for the amended C3: the 5-byte window `[5,0,0,0,7]` declares
a 5-byte metadata section; its field decoding fails (EOF inside the
window), and the next section starts exactly at the declared boundary 5
with `meta = None`. -/
theorem metaFail_declared_boundary_witness :
    afterMeta [5, 0, 0, 0, 7] 0 = (none, 5) ∧
    (metaRead [5, 0, 0, 0, 7] 0).1 = .error .ioErr :=
  ⟨metaFail_declared_boundary [5, 0, 0, 0, 7] 0 5 .ioErr (by decide)
    (by decide) (by decide) (by decide) (by decide), by decide⟩

/-! ## C6: the integrity check is advisory -/

/-- On the binary path, `process_manifest_data` is the binary pipeline
followed by attaching the warning flag. -/
theorem process_binary_eq (ext : Ext) (buf : Bytes)
    (hjson : isJsonManifest ext.jsonDetect buf = false) :
    processManifestData ext buf =
      (match binaryDecode ext.inflate buf with
       | .panic => Outcome.panic
       | .err e => Outcome.err e
       | .ok (h0, payload, mm, cl, fl) =>
         Outcome.ok ⟨h0, mm, some cl, some fl⟩
           (ext.sha1 payload != h0.sha1Hash)) := by
  unfold processManifestData
  rw [if_neg (by simp [hjson])]

/-- **C6.** For a binary-format manifest, the recomputed payload hash is
never compared fatally: (a) the decode outcome modulo the warning flag is
identical for any two SHA-1 functions — a mismatch can change at most the
advisory flag, never the manifest or the error; (b) whenever the binary
pipeline succeeds, the decode returns the manifest with the warning flag
set exactly when the recomputed hash differs from the header hash. -/
theorem shaMismatch_advisory (ext : Ext) (s : Bytes → Bytes) (buf : Bytes)
    (hjson : isJsonManifest ext.jsonDetect buf = false) :
    stripWarn (processManifestData ext buf) =
      stripWarn (processManifestData { ext with sha1 := s } buf) ∧
    (∀ h0 payload mm cl fl,
      binaryDecode ext.inflate buf = .ok (h0, payload, mm, cl, fl) →
      processManifestData ext buf =
        .ok ⟨h0, mm, some cl, some fl⟩ (ext.sha1 payload != h0.sha1Hash)) := by
  constructor
  · rw [process_binary_eq ext buf hjson,
      process_binary_eq { ext with sha1 := s } buf hjson]
    dsimp only
    cases binaryDecode ext.inflate buf with
    | panic => rfl
    | err e => rfl
    | ok tup =>
      obtain ⟨h0, payload, mm, cl, fl⟩ := tup
      rfl
  · intro h0 payload mm cl fl hbd
    rw [process_binary_eq ext buf hjson, hbd]

/-- Witness for C6: on `bufFull` (all-zero header hash), the constant
empty SHA-1 of `extC` mismatches and the matching SHA-1 of `extCZ` does
not, yet the stripped outcomes agree, and the pipeline success carries
the warning flag exactly when the hashes differ. -/
theorem shaMismatch_advisory_witness :
    stripWarn (processManifestData extC bufFull) =
      stripWarn (processManifestData extCZ bufFull) ∧
    processManifestData extC bufFull = .ok mFull true ∧
    processManifestData extCZ bufFull = .ok mFull false :=
  ⟨(shaMismatch_advisory extC (fun _ => List.replicate 20 0) bufFull
      (by decide)).1,
    by decide, by decide⟩

/-! ## C1: truncation never panics -/

/-- The overflow panic in the payload framing depends only on the header,
not on the buffer: if framing succeeded on some buffer, it cannot panic
on another. -/
theorem framePayload_ok_not_panic {h : ManifestHeader} {buf buf2 : Bytes}
    {pc : Bytes} (hok : framePayload h buf = .ok pc) :
    framePayload h buf2 ≠ .panic := by
  unfold framePayload at hok ⊢
  split at hok
  · exact absurd hok (by simp)
  next hovf =>
    intro hc
    split at hc
    next hovf2 => exact hovf hovf2
    · split at hc
      · exact absurd hc (by simp)
      · exact absurd hc (by simp)

/-- A slice that lies inside both a buffer and its truncation is the
same read from either. -/
theorem slice_take_eq {buf : Bytes} {start size k : Nat}
    (h2 : start + size ≤ buf.length)
    (h4 : start + size ≤ (buf.take k).length) :
    bytesAt (buf.take k) start size = bytesAt buf start size := by
  rw [bytesAt_take]
  apply List.take_of_length_le
  have hb := bytesAt_length_of_le h2
  have hK : (buf.take k).length = min k buf.length := by simp
  omega

/-- If framing succeeds on the full buffer and also on a truncation, the
two payload slices coincide (the slice lies within both). -/
theorem framePayload_take {h : ManifestHeader} {buf : Bytes}
    {pc pc2 : Bytes} {k : Nat} (hok : framePayload h buf = .ok pc)
    (hok2 : framePayload h (buf.take k) = .ok pc2) : pc2 = pc := by
  unfold framePayload at hok hok2
  split at hok
  · exact absurd hok (by simp)
  next hovf =>
    split at hok
    · exact absurd hok (by simp)
    next hbounds =>
      split at hok2
      · exact absurd hok2 (by simp)
      next hovf2 =>
        split at hok2
        · exact absurd hok2 (by simp)
        next hbounds2 =>
          push_neg at hbounds hbounds2
          obtain ⟨hs1, hs2⟩ := hbounds
          obtain ⟨hs3, hs4⟩ := hbounds2
          rw [← PanicOr.ok.inj hok, ← PanicOr.ok.inj hok2]
          exact slice_take_eq hs2 hs4

/-- Truncating a buffer on which the binary pipeline succeeds can never
drive the pipeline into a panic: the header either fails or decodes to
the same header; the framing either rejects the shortened payload with
the bounds error or yields the identical payload slice, after which the
whole computation coincides with the successful original. -/
theorem binaryDecode_take_not_panic {infl : Bytes → Option Bytes}
    {buf : Bytes} {h0 : ManifestHeader} {payload : Bytes}
    {mm : Option ManifestMeta} {cl : ChunkDataList} {fl : FileManifestList}
    (hbd : binaryDecode infl buf = .ok (h0, payload, mm, cl, fl)) (k : Nat) :
    binaryDecode infl (buf.take k) ≠ .panic := by
  obtain ⟨hhr, pc, hframe, henc, hdec, hsec⟩ := binaryDecode_ok_inv hbd
  intro hpan
  unfold binaryDecode at hpan
  cases hhr2 : headerRead (buf.take k) with
  | error e =>
    rw [hhr2] at hpan
    exact absurd hpan (by simp)
  | ok h1 =>
    simp only [hhr2] at hpan
    have hh : h1 = h0 := by
      have h3 := headerRead_take hhr2
      rw [hhr] at h3
      exact (Except.ok.inj h3).symm
    subst hh
    cases hf2 : framePayload h1 (buf.take k) with
    | panic => exact framePayload_ok_not_panic hframe hf2
    | err e =>
      simp only [hf2] at hpan
      exact absurd hpan (by simp)
    | ok pc2 =>
      simp only [hf2] at hpan
      have hpc : pc2 = pc := framePayload_take hframe hf2
      subst hpc
      rw [if_neg (by simp [henc])] at hpan
      simp only [hdec, hsec] at hpan
      exact absurd hpan (by simp)

/-- **C1.** For a buffer that decodes successfully on the binary path,
decoding any truncation `buf.take k` never panics (no index
out-of-bounds, no arithmetic overflow): it returns a typed error or a
manifest.  The panic sites of the pipeline (`usize` overflow in the
payload framing, the out-of-range indexing in the two zlib-signature
scans) are modelled by the explicit `.panic` outcome, and a JSON-sniffed
truncation also cannot panic because that path only parses. -/
theorem truncation_no_panic (ext : Ext) (buf : Bytes) (m : Manifest)
    (w : Bool) (h : processManifestData ext buf = .ok m w)
    (hjson : isJsonManifest ext.jsonDetect buf = false) (k : Nat) :
    processManifestData ext (buf.take k) ≠ .panic := by
  obtain ⟨h0, payload, mm, cl, fl, hbd, _, _⟩ := process_ok_binary_inv h hjson
  intro hpan
  unfold processManifestData at hpan
  by_cases hj2 : isJsonManifest ext.jsonDetect (buf.take k) = true
  · rw [if_pos hj2] at hpan
    split at hpan
    · exact absurd hpan (by simp)
    split at hpan
    · exact absurd hpan (by simp)
    · exact absurd hpan (by simp)
  · rw [if_neg hj2] at hpan
    cases hbd2 : binaryDecode ext.inflate (buf.take k) with
    | err e =>
      rw [hbd2] at hpan
      exact absurd hpan (by simp)
    | ok tup =>
      rw [hbd2] at hpan
      obtain ⟨a, b, c, d, e⟩ := tup
      exact absurd hpan (by simp)
    | panic => exact binaryDecode_take_not_panic hbd k hbd2

/-- Witness for C1: `bufFull` decodes successfully, and its truncation
to 50 bytes (cutting into the payload) does not panic — it is rejected
with the payload-bounds error. -/
theorem truncation_no_panic_witness :
    processManifestData extC bufFull = .ok mFull true ∧
    processManifestData extC (bufFull.take 50) ≠ Outcome.panic ∧
    processManifestData extC (bufFull.take 50) = .err .invalidData :=
  ⟨by decide,
    truncation_no_panic extC bufFull mFull true (by decide) (by decide) 50,
    by decide⟩

/-! ## Remaining witnesses and the C9 counterexample -/

/-- Witness for C4: `bufFull` decodes to a manifest whose single file
has one part of size 7 and `file_size = 7`. -/
theorem fileSize_eq_sumParts_witness :
    processManifestData extC bufFull = .ok mFull true ∧
    fileFull.fileSize = sumSizes fileFull.chunkParts :=
  ⟨by decide,
    fileSize_eq_sumParts extC bufFull mFull true (by decide) (by decide)
      flFull rfl fileFull (List.mem_singleton.mpr rfl)⟩

/-- Witness for C5: the kept part of `bufFull`'s single file has its
parent GUID in the chunk lookup; and a concrete absent-GUID part read
fails invalidly at `pos + 20` while the loop continues without error. -/
theorem partParent_in_lookup_witness :
    processManifestData extC bufFull = .ok mFull true ∧
    lkFind clFull.chunkLookup partFull.parentGuid ≠ none ∧
    chunkPartRead [] [] (List.replicate 24 1) 0 =
      (.error .invalidData, 20) ∧
    readParts [] [] (List.replicate 24 1) 3 0 = ([], 0, 20) :=
  ⟨by decide,
    partParent_in_lookup.1 extC bufFull mFull true (by decide) (by decide)
      clFull flFull rfl rfl fileFull (List.mem_singleton.mpr rfl) partFull
      (List.mem_singleton.mpr rfl),
    (partParent_in_lookup.2 [] [] (List.replicate 24 1) 0 2 (by decide)
      (by decide) (by decide)).1,
    (partParent_in_lookup.2 [] [] (List.replicate 24 1) 0 2 (by decide)
      (by decide) (by decide)).2⟩

/-- Witness for C8: `jC9` converts successfully under `extJ`, and the
converted file's source fields are certified well-formed. -/
theorem jsonValidation_witness :
    toManifest extJ jC9 = .ok jmC9 ∧
    hash60.length = 60 ∧
    extJ.uuidParse [0x67] ≠ none ∧
    parseHexString [0x30] ≠ none ∧
    parseHexString [0x35] ≠ none := by
  have hmain := jsonValidation_hard_failure.1 extJ jC9 jmC9 (by decide)
    jfC9 (List.mem_singleton.mpr rfl)
  have hparts := hmain.2 jpC9 (List.mem_singleton.mpr rfl)
  exact ⟨by decide, hmain.1, hparts.1, hparts.2.1, hparts.2.2⟩

/-- Counterexample for C9 as stated: the JSON-origin manifest `jmC9`
decodes successfully, its first chunk part's parent GUID resolves in the
chunk directory, yet the part's `chunk` field is `None` rather than a
denormalized copy of the resolved parent. -/
theorem jsonPartChunk_counterexample :
    firstPartChunkOf (toManifest extJ jC9) = some none ∧
    firstPartParentFound (toManifest extJ jC9) = true := by
  refine ⟨?_, ?_⟩ <;> decide

/-- Witness for the amended C9: the binary-origin part of `bufFull`
carries the directory element at its lookup index as its `chunk` copy. -/
theorem partChunk_denormalized_witness :
    partFull.chunk = (lkFind clFull.chunkLookup partFull.parentGuid).bind
      (fun i => clFull.elements[i]?) ∧
    partFull.chunk = some chunkFull :=
  ⟨(partChunk_denormalized.1 extC bufFull mFull true (by decide)
      (by decide) clFull flFull rfl rfl fileFull
      (List.mem_singleton.mpr rfl) partFull
      (List.mem_singleton.mpr rfl)).1,
    by decide⟩

/-- Witness for C10: `bufFull`'s manifest has both the chunk and the
file directory present (only `meta` is absent there). -/
theorem manifest_invariants_witness :
    mFull.chunkList.isSome = true ∧ mFull.fileList.isSome = true :=
  ⟨(manifest_invariants extC bufFull mFull true (by decide)).1,
    (manifest_invariants extC bufFull mFull true (by decide)).2.1⟩

end EgdataManifest
